import Mathlib

/-!
Verification of the SPIRV-Cross CFG builder and dominator analysis
(spirv_cfg.cpp): a shallow embedding of the data model, the post-order
DFS, immediate-dominator construction, and the DominatorBuilder helper,
together with proofs of the documented properties.
-/

namespace SpirvCfg

/-- Terminator of a basic block, mirroring SPIRBlock::Terminator together
with the branch-target fields the CFG traversal reads (next_block for
Direct, true_block and false_block for Select, the case targets plus the
optional default_block for MultiSelect; every other terminator kind is
collapsed into Other since the traversal ignores its fields). -/
inductive Terminator where
  | Direct (next_block : Nat)
  | Select (true_block : Nat) (false_block : Nat)
  | MultiSelect (cases : List Nat) (default_block : Nat)
  | Other
deriving DecidableEq

/-- Merge kind of a block, mirroring SPIRBlock::Merge. -/
inductive Merge where
  | MergeNone
  | MergeLoop
  | MergeSelection
deriving DecidableEq

/-- A basic block as read by the CFG code: its terminator (with branch
targets), its merge kind, and its merge_block identifier. Block identity
is an opaque Nat identifier, with 0 reserved as no-block. -/
structure Block where
  terminator : Terminator
  merge : Merge
  merge_block : Nat

/-- The mutable state of CFG construction. visit_order maps a block id to
-1 (absent from the C++ map, i.e. unvisited), 0 (the in-progress sentinel)
or a positive finalized post-order index; the default of -1 is modelled
from the spec (absent means unvisited, 0 is reserved for the sentinel).
post_order, preceding_edges and succeeding_edges mirror the members of the
same names. -/
structure CFGState where
  visit_order : Nat → Int
  visit_count : Nat
  post_order : List Nat
  preceding_edges : Nat → List Nat
  succeeding_edges : Nat → List Nat

/-- Pointwise update of a table keyed by block id. -/
def upd {α : Type} (f : Nat → α) (k : Nat) (v : α) : Nat → α :=
  fun x => if x = k then v else f x

/-- The state at the start of build_post_order_visit_order: counter zero,
all maps empty. -/
def initial_state : CFGState :=
  { visit_order := fun _ => -1
    visit_count := 0
    post_order := []
    preceding_edges := fun _ => []
    succeeding_edges := fun _ => [] }

/-- The add_unique helper inside CFG::add_branch: append value unless it
is already present. -/
def add_unique (l : List Nat) (v : Nat) : List Nat :=
  if v ∈ l then l else l ++ [v]

/-- CFG::add_branch: record the edge in both adjacency maps,
deduplicated. -/
def add_branch (st : CFGState) (from_id to_id : Nat) : CFGState :=
  { st with
    preceding_edges := upd st.preceding_edges to_id (add_unique (st.preceding_edges to_id) from_id)
    succeeding_edges := upd st.succeeding_edges from_id (add_unique (st.succeeding_edges from_id) to_id) }

/-- Line 90 of spirv_cfg.cpp: block back-edges from recursively
revisiting ourselves by writing the magic in-progress value 0. -/
def mark_in_progress (st : CFGState) (b : Nat) : CFGState :=
  { st with visit_order := upd st.visit_order b 0 }

/-- Lines 129-131 of spirv_cfg.cpp: assign the final visit order
(counting from one) and append the block to post_order. -/
def finalize (st : CFGState) (b : Nat) : CFGState :=
  { st with
    visit_order := upd st.visit_order b ((st.visit_count : Int) + 1)
    visit_count := st.visit_count + 1
    post_order := st.post_order ++ [b] }

/-- CFG::is_back_edge: true iff the recorded visit order is the
temporary magic value 0; the assert that the block is present in the
visit_order map is modelled as returning none. -/
def is_back_edge (st : CFGState) (to_id : Nat) : Option Bool :=
  if 0 ≤ st.visit_order to_id then some (st.visit_order to_id == 0) else none

/-- The branch targets a terminator makes the DFS recurse into, in
source order: next_block for Direct; true_block then false_block for
Select; each case target in order and then default_block when it is
nonzero for MultiSelect; nothing otherwise. -/
def terminator_targets : Terminator → List Nat
  | Terminator.Direct next_block => [next_block]
  | Terminator.Select true_block false_block => [true_block, false_block]
  | Terminator.MultiSelect cases default_block =>
      cases ++ (if default_block ≠ 0 then [default_block] else [])
  | Terminator.Other => []

/-- The per-target body of the switch in CFG::post_order_visit: recurse
into each branch target with the given visitor and, when the recursion
reports the target safe (not a back edge), record the edge with
add_branch. -/
def visit_targets (visit : CFGState → Nat → Option (CFGState × Bool)) (from_id : Nat) :
    CFGState → List Nat → Option CFGState
  | st, [] => some st
  | st, t :: ts =>
    match visit st t with
    | none => none
    | some (st2, ok) =>
        visit_targets visit from_id (if ok then add_branch st2 from_id t else st2) ts

/-- CFG::post_order_visit with explicit fuel (the C++ recursion depth is
bounded by the number of blocks; fuel exhaustion yields none). Already
seen blocks return without recursing, reporting false exactly for back
edges; otherwise the block is marked in progress, its branch targets are
visited (recording edges for the safe ones), the implied loop-header
edge to the merge target is added unconditionally when merge is
MergeLoop, and the block is finalized. -/
def post_order_visit (bl : Nat → Block) : Nat → CFGState → Nat → Option (CFGState × Bool)
  | 0, _, _ => none
  | fuel + 1, st, block_id =>
    if 0 ≤ st.visit_order block_id then
      match is_back_edge st block_id with
      | none => none
      | some b => some (st, !b)
    else
      let st1 := mark_in_progress st block_id
      let blk := bl block_id
      match visit_targets (post_order_visit bl fuel) block_id st1 (terminator_targets blk.terminator) with
      | none => none
      | some st2 =>
          let st3 := if blk.merge = Merge.MergeLoop then add_branch st2 block_id blk.merge_block else st2
          some (finalize st3 block_id, true)

/-- CFG::build_post_order_visit_order: run the DFS from the entry block
on the freshly cleared state; the boolean result is discarded. -/
def build_post_order (bl : Nat → Block) (entry : Nat) (fuel : Nat) : Option CFGState :=
  (post_order_visit bl fuel initial_state entry).map Prod.fst

/-- CFG::get_visit_order, modelled from the spec: the finishing index of
a visited block; calling it on an unvisited block is a programming error
(the header is not part of the given source), modelled as none. -/
def get_visit_order (st : CFGState) (b : Nat) : Option Int :=
  if 0 ≤ st.visit_order b then some (st.visit_order b) else none

/-- CFG::find_common_dominator with explicit fuel: walk the two
candidates toward the root, at each step replacing the one with the
smaller visit order by its immediate dominator, until they agree. The
immediate-dominator map is passed explicitly because the C++ method
reads the member that build_immediate_dominators is mutating. -/
def find_common_dominator (st : CFGState) (idom : Nat → Nat) :
    Nat → Nat → Nat → Option Nat
  | 0, _, _ => none
  | fuel + 1, a, b =>
    if a = b then some a
    else
      match get_visit_order st a, get_visit_order st b with
      | some va, some vb =>
          if va < vb then find_common_dominator st idom fuel (idom a) b
          else find_common_dominator st idom fuel a (idom b)
      | _, _ => none

/-- One iteration of the predecessor fold in
CFG::build_immediate_dominators: the first predecessor seeds the entry,
later ones are folded through find_common_dominator; the C++
assert(immediate_dominators[edge]) is modelled as returning none. -/
def idom_step (st : CFGState) (fuel : Nat) (block : Nat) (idom : Nat → Nat) (edge : Nat) :
    Option (Nat → Nat) :=
  if idom block ≠ 0 then
    if idom edge = 0 then none
    else
      match find_common_dominator st idom fuel block edge with
      | none => none
      | some d => some (upd idom block d)
  else some (upd idom block edge)

/-- The body of the reverse post-order loop in
CFG::build_immediate_dominators for one block: blocks without recorded
predecessors are skipped. -/
def idom_block (st : CFGState) (fuel : Nat) (idom : Nat → Nat) (block : Nat) :
    Option (Nat → Nat) :=
  if st.preceding_edges block = [] then some idom
  else (st.preceding_edges block).foldlM (fun m e => idom_step st fuel block m e) idom

/-- CFG::build_immediate_dominators: seed the entry block as its own
dominator and walk post_order in reverse. -/
def build_immediate_dominators (st : CFGState) (entry : Nat) (fuel : Nat) :
    Option (Nat → Nat) :=
  (st.post_order.reverse).foldlM (idom_block st fuel) (upd (fun _ => 0) entry entry)

/-- A fully constructed CFG: the DFS state, the immediate-dominator map
and the entry block of the function it was built for. -/
structure CFG where
  st : CFGState
  idom : Nat → Nat
  entry : Nat

/-- The CFG constructor: build the post-order visit order, then the
immediate dominators. -/
def build_cfg (bl : Nat → Block) (entry : Nat) (fuel : Nat) : Option CFG :=
  match build_post_order bl entry fuel with
  | none => none
  | some st =>
    match build_immediate_dominators st entry fuel with
    | none => none
    | some idom => some { st := st, idom := idom, entry := entry }

/-- CFG::get_immediate_dominator, modelled from the spec: the dominator
id of a block, or 0 (none) for unreached blocks (the header is not part
of the given source). -/
def get_immediate_dominator (cfg : CFG) (b : Nat) : Nat :=
  cfg.idom b

/-- DominatorBuilder::add_block acting on the accumulated dominator
(initially 0, meaning none): unreachable blocks are ignored silently,
the first reachable block seeds the dominator, and later distinct blocks
fold through find_common_dominator. -/
def dominator_builder_add_block (cfg : CFG) (fuel : Nat) (dominator : Nat) (block : Nat) :
    Option Nat :=
  if get_immediate_dominator cfg block = 0 then some dominator
  else if dominator = 0 then some block
  else if block ≠ dominator then find_common_dominator cfg.st cfg.idom fuel block dominator
  else some dominator

/-- DominatorBuilder::lift_continue_block_dominator acting on the
accumulated dominator: when any branch target of the dominator block has
a visit order strictly greater than the dominator's own, reset the
dominator to the function entry block; get_visit_order is consulted for
every target exactly as the switch in the source does. -/
def lift_continue_block_dominator (bl : Nat → Block) (cfg : CFG) (dominator : Nat) :
    Option Nat :=
  if dominator = 0 then some dominator
  else
    match get_visit_order cfg.st dominator with
    | none => none
    | some po =>
      let bed :=
        match (bl dominator).terminator with
        | Terminator.Direct next_block =>
            (get_visit_order cfg.st next_block).map (fun v => decide (po < v))
        | Terminator.Select true_block false_block => do
            let vt ← get_visit_order cfg.st true_block
            let vf ← get_visit_order cfg.st false_block
            pure (decide (po < vt) || decide (po < vf))
        | Terminator.MultiSelect cases default_block => do
            let acc ← cases.foldlM (fun acc t => do
              let v ← get_visit_order cfg.st t
              pure (acc || decide (po < v))) false
            if default_block ≠ 0 then do
              let v ← get_visit_order cfg.st default_block
              pure (acc || decide (po < v))
            else pure acc
        | Terminator.Other => some false
      match bed with
      | none => none
      | some b => some (if b then cfg.entry else dominator)

/-- Scenario A from the spec: the linear chain Entry(1) to B1(2) to
B2(3), with B2 returning. -/
def chain_blocks : Nat → Block
  | 1 => { terminator := Terminator.Direct 2, merge := Merge.MergeNone, merge_block := 0 }
  | 2 => { terminator := Terminator.Direct 3, merge := Merge.MergeNone, merge_block := 0 }
  | _ => { terminator := Terminator.Other, merge := Merge.MergeNone, merge_block := 0 }

/-- A junk CFG used only as the default of Option.getD in closed
statements about concrete builds. -/
def junk_cfg : CFG :=
  { st := initial_state, idom := fun _ => 0, entry := 0 }

/-- The CFG of Scenario A, extracted from the successful build. -/
def chain_cfg : CFG :=
  (build_cfg chain_blocks 1 8).getD junk_cfg

/-- Scenario C from the spec: Entry(1) jumps to the do/while loop header
H(2) whose merge is MergeLoop with merge_block Merge(4); H jumps to the
body block BodyEnd(3), which branches back to H (a back edge) or exits
to Merge(4); Merge returns. No terminator of H reaches Merge
directly. -/
def dowhile_blocks : Nat → Block
  | 1 => { terminator := Terminator.Direct 2, merge := Merge.MergeNone, merge_block := 0 }
  | 2 => { terminator := Terminator.Direct 3, merge := Merge.MergeLoop, merge_block := 4 }
  | 3 => { terminator := Terminator.Select 2 4, merge := Merge.MergeNone, merge_block := 0 }
  | _ => { terminator := Terminator.Other, merge := Merge.MergeNone, merge_block := 0 }

/-- The CFG of Scenario C, extracted from the successful build. -/
def dowhile_cfg : CFG :=
  (build_cfg dowhile_blocks 1 16).getD junk_cfg

/-- A pathological function whose loop header names the entry block as
its merge target: Entry(1) jumps to H(2); H returns but carries
merge = MergeLoop with merge_block = 1, so the synthetic loop edge
targets the still in-progress entry block. -/
def pathological_blocks : Nat → Block
  | 1 => { terminator := Terminator.Direct 2, merge := Merge.MergeNone, merge_block := 0 }
  | 2 => { terminator := Terminator.Other, merge := Merge.MergeLoop, merge_block := 1 }
  | _ => { terminator := Terminator.Other, merge := Merge.MergeNone, merge_block := 0 }

/-- The DFS state of the pathological function, extracted from the
successful traversal (only immediate-dominator construction fails
there). -/
def pathological_state : CFGState :=
  (build_post_order pathological_blocks 1 8).getD initial_state

/-- The monotone step relation between the state at entry to a complete
post_order_visit call (or a run of sibling target visits) and the state
at its exit: visit orders only grow, finalized orders and the
in-progress set are preserved, post_order grows by fresh blocks at the
back, adjacency only grows, and any block finalized during the step gets
an order above the starting counter. -/
structure StepOK (st st2 : CFGState) : Prop where
  order_mono : ∀ x, st.visit_order x ≤ st2.visit_order x
  fin_pres : ∀ x, 0 < st.visit_order x → st2.visit_order x = st.visit_order x
  inprog_pres : ∀ x, st.visit_order x = 0 → st2.visit_order x = 0
  inprog_of : ∀ x, st2.visit_order x = 0 → st.visit_order x = 0
  po_extend : ∃ d, st2.post_order = st.post_order ++ d
  po_new_fresh : ∀ x, x ∈ st2.post_order → x ∉ st.post_order → st.visit_order x < 0
  succ_grow : ∀ f t, t ∈ st.succeeding_edges f → t ∈ st2.succeeding_edges f
  pred_grow : ∀ t p, p ∈ st.preceding_edges t → p ∈ st2.preceding_edges t
  count_mono : st.visit_count ≤ st2.visit_count
  new_fin_big : ∀ x, st.visit_order x ≤ 0 → 0 < st2.visit_order x →
    (st.visit_count : Int) < st2.visit_order x

/-- The structural well-formedness invariant of the DFS state: the
counter equals the number of finalized blocks, post_order lists blocks
with orders 1, 2, ... in sequence, exactly the blocks with positive
order are in post_order, all orders are bounded by the counter, every
recorded predecessor has been seen, the two adjacency maps are
symmetric, and adjacency lists are duplicate free. -/
structure WFInv (st : CFGState) : Prop where
  count_eq : st.visit_count = st.post_order.length
  orders_idx : ∀ i (h : i < st.post_order.length),
    st.visit_order (st.post_order.get ⟨i, h⟩) = i + 1
  mem_iff : ∀ x, 0 < st.visit_order x ↔ x ∈ st.post_order
  bound : ∀ x, st.visit_order x ≤ (st.visit_count : Int)
  src_seen : ∀ t p, p ∈ st.preceding_edges t → 0 ≤ st.visit_order p
  sym : ∀ x y, y ∈ st.succeeding_edges x ↔ x ∈ st.preceding_edges y
  nodup_pred : ∀ x, (st.preceding_edges x).Nodup
  nodup_succ : ∀ x, (st.succeeding_edges x).Nodup

/-- A finalized block x has a recorded incoming edge from a seen block
that, once finalized, carries a strictly larger visit order (its DFS
parent, or another in-progress ancestor). -/
def ParentProp (st : CFGState) (x : Nat) : Prop :=
  ∃ p, x ∈ st.succeeding_edges p ∧ 0 ≤ st.visit_order p ∧
    (0 < st.visit_order p → st.visit_order x < st.visit_order p)

/-- Every finalized loop header has its synthetic edge to its merge
block recorded in both adjacency maps. -/
def LoopEdges (bl : Nat → Block) (st : CFGState) : Prop :=
  ∀ b ∈ st.post_order, (bl b).merge = Merge.MergeLoop →
    (bl b).merge_block ∈ st.succeeding_edges b ∧
    b ∈ st.preceding_edges ((bl b).merge_block)

/-- The invariant of the reverse post-order walk of
build_immediate_dominators after all blocks with visit order above kk
have been handled: the entry is its own dominator, every handled block
(and the entry) has a nonzero dominator inside post_order that is either
itself or has a strictly larger visit order, and every unhandled block
still maps to 0. -/
def IdomInv (st : CFGState) (entry : Nat) (kk : Int) (idom : Nat → Nat) : Prop :=
  idom entry = entry ∧
  (∀ x ∈ st.post_order, (kk < st.visit_order x ∨ x = entry) →
    idom x ≠ 0 ∧ idom x ∈ st.post_order ∧
    (idom x = x ∨ st.visit_order x < st.visit_order (idom x))) ∧
  (∀ y, ¬(y ∈ st.post_order ∧ (kk < st.visit_order y ∨ y = entry)) → idom y = 0)

/-- A visit of an already seen block returns without recursing; the
boolean is the negation of the back-edge test. -/
theorem post_order_visit_seen (bl : Nat → Block) (fuel : Nat) (st : CFGState) (b : Nat)
    (h : 0 ≤ st.visit_order b) :
    post_order_visit bl (fuel + 1) st b = some (st, !(st.visit_order b == 0)) := by
  simp [post_order_visit, is_back_edge, h]

/-- get_visit_order on a finalized block returns its order. -/
theorem get_visit_order_pos (st : CFGState) (b : Nat) (h : 0 < st.visit_order b) :
    get_visit_order st b = some (st.visit_order b) := by
  simp [get_visit_order, le_of_lt h]

/-- C2: in the do/while Scenario C, the loop header H(2) carries
merge = MergeLoop with merge_block Merge(4), no terminator target of H
reaches Merge, yet after CFG construction the immediate dominator of
Merge is H, thanks to the synthetic loop-header edge. -/
theorem claim2_do_while_merge_dominator :
    (dowhile_blocks 2).merge = Merge.MergeLoop ∧
    (dowhile_blocks 2).merge_block = 4 ∧
    4 ∉ terminator_targets (dowhile_blocks 2).terminator ∧
    (build_cfg dowhile_blocks 1 16).map (fun cfg => get_immediate_dominator cfg 4) = some 2 := by
  refine ⟨rfl, rfl, by decide, by decide⟩

/-- C4: an attempted visit of an in-progress target (visit order 0, a
back edge) returns false with the state unchanged and the caller records
no edge for it; an attempted visit of a finalized target (a crossing
edge) returns true with the state unchanged (no recursion) and the
caller records exactly the one edge. -/
theorem claim4_back_edge_exclusion (bl : Nat → Block) (fuel : Nat) (st : CFGState)
    (f t : Nat) :
    (st.visit_order t = 0 →
      post_order_visit bl (fuel + 1) st t = some (st, false) ∧
      visit_targets (post_order_visit bl (fuel + 1)) f st [t] = some st) ∧
    (0 < st.visit_order t →
      post_order_visit bl (fuel + 1) st t = some (st, true) ∧
      visit_targets (post_order_visit bl (fuel + 1)) f st [t] = some (add_branch st f t)) := by
  constructor
  · intro h0
    have hvisit : post_order_visit bl (fuel + 1) st t = some (st, false) := by
      rw [post_order_visit_seen bl fuel st t (le_of_eq h0.symm)]
      simp [h0]
    refine ⟨hvisit, ?_⟩
    simp [visit_targets, hvisit]
  · intro hpos
    have hvisit : post_order_visit bl (fuel + 1) st t = some (st, true) := by
      rw [post_order_visit_seen bl fuel st t (le_of_lt hpos)]
      have : ¬ st.visit_order t = 0 := by omega
      simp [this]
    refine ⟨hvisit, ?_⟩
    simp [visit_targets, hvisit]

/-- Witness for C4 at concrete states: block 5 is in progress in one
state and block 9 finalized in the other. -/
theorem claim4_witness :
    (post_order_visit chain_blocks 3 (mark_in_progress initial_state 5) 5 =
      some (mark_in_progress initial_state 5, false) ∧
     visit_targets (post_order_visit chain_blocks 3) 2 (mark_in_progress initial_state 5) [5] =
      some (mark_in_progress initial_state 5)) ∧
    (post_order_visit chain_blocks 3 (finalize initial_state 9) 9 =
      some (finalize initial_state 9, true) ∧
     visit_targets (post_order_visit chain_blocks 3) 2 (finalize initial_state 9) [9] =
      some (add_branch (finalize initial_state 9) 2 9)) :=
  ⟨(claim4_back_edge_exclusion chain_blocks 2 (mark_in_progress initial_state 5) 2 5).1
      (by decide),
   (claim4_back_edge_exclusion chain_blocks 2 (finalize initial_state 9) 2 9).2
      (by decide)⟩

/-- C8: DominatorBuilder::add_block called with a block that has no
immediate dominator (unreachable) leaves the accumulated dominator
unchanged: a silent no-op. -/
theorem claim8_add_block_unreachable_noop (cfg : CFG) (fuel dominator block : Nat)
    (h : get_immediate_dominator cfg block = 0) :
    dominator_builder_add_block cfg fuel dominator block = some dominator := by
  simp [dominator_builder_add_block, h]

/-- Witness for C8: in the junk CFG every block lacks a dominator, and
add_block keeps the accumulated dominator 7. -/
theorem claim8_witness :
    get_immediate_dominator junk_cfg 5 = 0 ∧
    dominator_builder_add_block junk_cfg 4 7 5 = some 7 :=
  ⟨rfl, claim8_add_block_unreachable_noop junk_cfg 4 7 5 rfl⟩

/-- C1 counterexample: in the linear chain of Scenario A the block B2(3)
has immediate dominator B1(2) distinct from itself, and the visit order
of the dominator (2) is strictly greater, not less than or equal. -/
theorem claim1_counterexample :
    build_cfg chain_blocks 1 8 = some chain_cfg ∧
    3 ∈ chain_cfg.st.post_order ∧
    chain_cfg.idom 3 = 2 ∧ (2 : Nat) ≠ 3 ∧
    ¬(chain_cfg.st.visit_order 2 ≤ chain_cfg.st.visit_order 3) :=
  ⟨rfl, by decide, by decide, by decide, by decide⟩

/-- C10 counterexample: in the pathological function the entry block 1
is a processed block of post_order whose recorded predecessor 2 (added
by the synthetic loop-header edge while 1 was still in progress)
finished the DFS earlier, with a strictly smaller visit order; the
assert on the predecessor's dominator then fires, so immediate-dominator
construction fails. -/
theorem claim10_counterexample :
    build_post_order pathological_blocks 1 8 = some pathological_state ∧
    1 ∈ pathological_state.post_order ∧
    2 ∈ pathological_state.preceding_edges 1 ∧
    pathological_state.visit_order 2 < pathological_state.visit_order 1 ∧
    build_immediate_dominators pathological_state 1 8 = none :=
  ⟨rfl, by decide, by decide, by decide, rfl⟩

/-- find_common_dominator is symmetric in its two arguments whenever
both lie in post_order, every post_order block has a positive visit
order, the immediate-dominator map maps post_order into itself, and
visit orders are injective on post_order. -/
theorem fcd_comm (st : CFGState) (idom : Nat → Nat)
    (hvis : ∀ x ∈ st.post_order, 0 < st.visit_order x)
    (hclosed : ∀ x ∈ st.post_order, idom x ∈ st.post_order)
    (hinj : ∀ x ∈ st.post_order, ∀ y ∈ st.post_order,
      st.visit_order x = st.visit_order y → x = y) :
    ∀ fuel a b, a ∈ st.post_order → b ∈ st.post_order →
      find_common_dominator st idom fuel a b = find_common_dominator st idom fuel b a := by
  intro fuel
  induction fuel with
  | zero => intro a b _ _; rfl
  | succ fuel ih =>
    intro a b ha hb
    by_cases hab : a = b
    · subst hab; rfl
    · have hga : get_visit_order st a = some (st.visit_order a) :=
        get_visit_order_pos st a (hvis a ha)
      have hgb : get_visit_order st b = some (st.visit_order b) :=
        get_visit_order_pos st b (hvis b hb)
      have hne : st.visit_order a ≠ st.visit_order b :=
        fun h => hab (hinj a ha b hb h)
      simp only [find_common_dominator, hga, hgb, if_neg hab, if_neg (Ne.symm hab)]
      rcases lt_or_gt_of_ne hne with hlt | hgt
      · rw [if_pos hlt, if_neg (not_lt_of_gt hlt)]
        exact ih (idom a) b (hclosed a ha) hb
      · rw [if_neg (not_lt_of_gt hgt), if_pos hgt]
        exact ih a (idom b) ha (hclosed b hb)

/-- C9: under the conditions of a successfully built CFG (visited
blocks carry positive visit orders, injectively, and their dominator
chains stay among visited blocks), find_common_dominator is symmetric,
and on equal arguments it returns the argument itself. -/
theorem claim9_common_dominator_symm_idem (st : CFGState) (idom : Nat → Nat) (a b : Nat)
    (ha : a ∈ st.post_order) (hb : b ∈ st.post_order)
    (hvis : ∀ x ∈ st.post_order, 0 < st.visit_order x)
    (hclosed : ∀ x ∈ st.post_order, idom x ∈ st.post_order)
    (hinj : ∀ x ∈ st.post_order, ∀ y ∈ st.post_order,
      st.visit_order x = st.visit_order y → x = y) :
    (∀ fuel, find_common_dominator st idom fuel a b =
             find_common_dominator st idom fuel b a) ∧
    (∀ fuel, find_common_dominator st idom (fuel + 1) a a = some a) := by
  constructor
  · intro fuel; exact fcd_comm st idom hvis hclosed hinj fuel a b ha hb
  · intro fuel; simp [find_common_dominator]

/-- Witness for C9 on the Scenario C CFG with the body block 3 and the
merge block 4. -/
theorem claim9_witness :
    (find_common_dominator dowhile_cfg.st dowhile_cfg.idom 8 3 4 =
      find_common_dominator dowhile_cfg.st dowhile_cfg.idom 8 4 3) ∧
    find_common_dominator dowhile_cfg.st dowhile_cfg.idom 8 3 3 = some 3 := by
  have h := claim9_common_dominator_symm_idem dowhile_cfg.st dowhile_cfg.idom 3 4
    (by decide) (by decide) (by decide) (by decide) (by decide)
  exact ⟨h.1 8, h.2 7⟩

/-- Folding the MultiSelect case targets accumulates exactly the
List.any of the per-target visit-order comparisons, provided every
target was visited. -/
theorem foldlM_any_visit (st : CFGState) (po_ : Int) :
    ∀ (cases : List Nat) (acc : Bool), (∀ t ∈ cases, 0 < st.visit_order t) →
      cases.foldlM (fun acc t => do
        let v ← get_visit_order st t
        pure (acc || decide (po_ < v))) acc =
      some (acc || cases.any (fun t => decide (po_ < st.visit_order t))) := by
  intro cases
  induction cases with
  | nil => intro acc _; simp
  | cons t ts ih =>
    intro acc hall
    have hgt : get_visit_order st t = some (st.visit_order t) :=
      get_visit_order_pos st t (hall t (List.mem_cons_self t ts))
    have hrest : ∀ u ∈ ts, 0 < st.visit_order u :=
      fun u hu => hall u (List.mem_cons_of_mem t hu)
    rw [List.foldlM_cons, hgt]
    show List.foldlM (fun acc t => do
        let v ← get_visit_order st t
        pure (acc || decide (po_ < v))) (acc || decide (po_ < st.visit_order t)) ts =
      some (acc || (t :: ts).any (fun t => decide (po_ < st.visit_order t)))
    rw [ih (acc || decide (po_ < st.visit_order t)) hrest]
    simp [List.any_cons, Bool.or_assoc]

/-- C7: with a nonzero accumulated dominator whose block and branch
targets were all visited, lift_continue_block_dominator resets the
dominator to the entry block if and only if some branch target of its
terminator has a visit order strictly greater than the dominator's own;
otherwise it leaves the dominator unchanged. -/
theorem claim7_lift_continue_dominator (bl : Nat → Block) (cfg : CFG) (d : Nat)
    (hd : d ≠ 0) (hdv : 0 < cfg.st.visit_order d)
    (ht : ∀ t ∈ terminator_targets (bl d).terminator, 0 < cfg.st.visit_order t) :
    lift_continue_block_dominator bl cfg d =
      some (if ∃ t ∈ terminator_targets (bl d).terminator,
                cfg.st.visit_order d < cfg.st.visit_order t
            then cfg.entry else d) := by
  unfold lift_continue_block_dominator
  rw [if_neg hd, get_visit_order_pos cfg.st d hdv]
  cases hterm : (bl d).terminator with
  | Direct n =>
    rw [hterm] at ht
    have hn : 0 < cfg.st.visit_order n := ht n (by simp [terminator_targets])
    dsimp only
    rw [get_visit_order_pos cfg.st n hn]
    by_cases hlt : cfg.st.visit_order d < cfg.st.visit_order n
    · simp [terminator_targets, hlt]
    · simp [terminator_targets, hlt]
  | Select tb fb =>
    rw [hterm] at ht
    have htb : 0 < cfg.st.visit_order tb := ht tb (by simp [terminator_targets])
    have hfb : 0 < cfg.st.visit_order fb := ht fb (by simp [terminator_targets])
    dsimp only
    rw [get_visit_order_pos cfg.st tb htb, get_visit_order_pos cfg.st fb hfb]
    by_cases h1 : cfg.st.visit_order d < cfg.st.visit_order tb <;>
      by_cases h2 : cfg.st.visit_order d < cfg.st.visit_order fb <;>
      simp [terminator_targets, h1, h2]
  | MultiSelect cases default_block =>
    rw [hterm] at ht
    have hcases : ∀ t ∈ cases, 0 < cfg.st.visit_order t := by
      intro u hu
      exact ht u (by simp [terminator_targets, hu])
    dsimp only
    rw [foldlM_any_visit cfg.st (cfg.st.visit_order d) cases false hcases]
    by_cases hdef : default_block ≠ 0
    · have hdb : 0 < cfg.st.visit_order default_block :=
        ht default_block (by simp [terminator_targets, hdef])
      simp only [Option.some_bind, if_pos hdef, Option.bind_eq_bind,
        get_visit_order_pos cfg.st default_block hdb, Bool.false_or]
      by_cases hany : ∃ t ∈ cases, cfg.st.visit_order d < cfg.st.visit_order t
      · have hb : cases.any (fun t => decide (cfg.st.visit_order d < cfg.st.visit_order t)) = true := by
          simpa [List.any_eq_true] using hany
        obtain ⟨t0, ht0, hp0⟩ := hany
        have hex : ∃ t ∈ cases ++ (if ¬default_block = 0 then [default_block] else []),
            cfg.st.visit_order d < cfg.st.visit_order t :=
          ⟨t0, List.mem_append_left _ ht0, hp0⟩
        simp [terminator_targets, hdef, hb]
        rw [if_pos hex]
      · have hb : cases.any (fun t => decide (cfg.st.visit_order d < cfg.st.visit_order t)) = false := by
          simpa [List.any_eq_false] using fun t h => hany ∘ (⟨t, h, ·⟩)
        by_cases hdlt : cfg.st.visit_order d < cfg.st.visit_order default_block
        · have hex : ∃ t ∈ cases ++ (if ¬default_block = 0 then [default_block] else []),
              cfg.st.visit_order d < cfg.st.visit_order t :=
            ⟨default_block, List.mem_append_right _ (by simp [hdef]), hdlt⟩
          simp [terminator_targets, hdef, hb, hdlt]
          rw [if_pos hex]
        · have hnex : ¬∃ t ∈ cases ++ (if ¬default_block = 0 then [default_block] else []),
              cfg.st.visit_order d < cfg.st.visit_order t := by
            rintro ⟨t, htm, hp⟩
            rcases List.mem_append.mp htm with h | h
            · exact hany ⟨t, h, hp⟩
            · rw [if_pos hdef] at h
              have : t = default_block := by simpa using h
              subst this
              exact hdlt hp
          simp [terminator_targets, hdef, hb, hdlt]
          rw [if_neg hnex]
    · have hdef0 : default_block = 0 := by simpa using hdef
      subst hdef0
      simp only [Option.some_bind, Bool.false_or]
      by_cases hany : ∃ t ∈ cases, cfg.st.visit_order d < cfg.st.visit_order t
      · have : cases.any (fun t => decide (cfg.st.visit_order d < cfg.st.visit_order t)) = true := by
          simpa [List.any_eq_true] using hany
        simp [terminator_targets, this, hany]
      · have : cases.any (fun t => decide (cfg.st.visit_order d < cfg.st.visit_order t)) = false := by
          simpa [List.any_eq_false] using fun t h => hany ∘ (⟨t, h, ·⟩)
        simp [terminator_targets, this, hany]
  | Other =>
    dsimp only
    simp [terminator_targets]

/-- Witness for C7 on the Scenario C CFG: the body block 3 branches
back to the loop header 2 whose visit order is greater, so the dominator
is lifted to the entry block 1. -/
theorem claim7_witness :
    lift_continue_block_dominator dowhile_blocks dowhile_cfg 3 = some 1 := by
  have h := claim7_lift_continue_dominator dowhile_blocks dowhile_cfg 3
    (by decide) (by decide) (by decide)
  rw [h, if_pos (by decide)]
  decide

theorem upd_same {α : Type} (f : Nat → α) (k : Nat) (v : α) : upd f k v k = v := by
  simp [upd]

theorem upd_of_ne {α : Type} (f : Nat → α) (k : Nat) (v : α) {x : Nat} (h : x ≠ k) :
    upd f k v x = f x := by
  simp [upd, h]

theorem upd_upd {α : Type} (f : Nat → α) (k : Nat) (v w : α) :
    upd (upd f k v) k w = upd f k w := by
  funext x
  by_cases h : x = k <;> simp [upd, h]

theorem upd_self {α : Type} (f : Nat → α) (k : Nat) : upd f k (f k) = f := by
  funext x
  by_cases h : x = k <;> simp [upd, h]

theorem mem_add_unique {l : List Nat} {v x : Nat} :
    x ∈ add_unique l v ↔ x ∈ l ∨ x = v := by
  unfold add_unique
  by_cases h : v ∈ l
  · simp only [if_pos h]
    constructor
    · exact Or.inl
    · rintro (hx | rfl)
      · exact hx
      · exact h
  · simp [if_neg h]

theorem nodup_add_unique {l : List Nat} {v : Nat} (h : l.Nodup) :
    (add_unique l v).Nodup := by
  unfold add_unique
  by_cases hv : v ∈ l
  · simpa [if_pos hv] using h
  · have hd : l.Disjoint [v] := by
      intro a ha hav
      rw [List.mem_singleton] at hav
      subst hav
      exact hv ha
    simpa [if_neg hv] using List.Nodup.append h (List.nodup_singleton v) hd

theorem add_branch_vo (st : CFGState) (f t : Nat) :
    (add_branch st f t).visit_order = st.visit_order := rfl

theorem add_branch_po (st : CFGState) (f t : Nat) :
    (add_branch st f t).post_order = st.post_order := rfl

theorem add_branch_count (st : CFGState) (f t : Nat) :
    (add_branch st f t).visit_count = st.visit_count := rfl

theorem add_branch_succ (st : CFGState) (f t g y : Nat) :
    y ∈ (add_branch st f t).succeeding_edges g ↔
      y ∈ st.succeeding_edges g ∨ (g = f ∧ y = t) := by
  show y ∈ upd st.succeeding_edges f (add_unique (st.succeeding_edges f) t) g ↔ _
  by_cases h : g = f
  · subst h
    rw [upd_same]
    rw [mem_add_unique]
    tauto
  · rw [upd_of_ne _ _ _ h]
    tauto

theorem add_branch_pred (st : CFGState) (f t g y : Nat) :
    y ∈ (add_branch st f t).preceding_edges g ↔
      y ∈ st.preceding_edges g ∨ (g = t ∧ y = f) := by
  show y ∈ upd st.preceding_edges t (add_unique (st.preceding_edges t) f) g ↔ _
  by_cases h : g = t
  · subst h
    rw [upd_same]
    rw [mem_add_unique]
    tauto
  · rw [upd_of_ne _ _ _ h]
    tauto

theorem mark_vo (st : CFGState) (b : Nat) :
    (mark_in_progress st b).visit_order = upd st.visit_order b 0 := rfl

theorem mark_po (st : CFGState) (b : Nat) :
    (mark_in_progress st b).post_order = st.post_order := rfl

theorem finalize_vo (st : CFGState) (b : Nat) :
    (finalize st b).visit_order = upd st.visit_order b ((st.visit_count : Int) + 1) := rfl

theorem finalize_po (st : CFGState) (b : Nat) :
    (finalize st b).post_order = st.post_order ++ [b] := rfl

theorem step_ok_refl (st : CFGState) : StepOK st st where
  order_mono := fun _ => le_refl _
  fin_pres := fun _ _ => rfl
  inprog_pres := fun _ h => h
  inprog_of := fun _ h => h
  po_extend := ⟨[], by simp⟩
  po_new_fresh := fun _ h h2 => absurd h h2
  succ_grow := fun _ _ h => h
  pred_grow := fun _ _ h => h
  count_mono := le_refl _
  new_fin_big := fun _ h1 h2 => absurd h2 (not_lt.2 h1)

theorem step_ok_trans {s1 s2 s3 : CFGState} (a : StepOK s1 s2) (b : StepOK s2 s3) :
    StepOK s1 s3 where
  order_mono := fun x => le_trans (a.order_mono x) (b.order_mono x)
  fin_pres := fun x h => by rw [b.fin_pres x (by rw [a.fin_pres x h]; exact h), a.fin_pres x h]
  inprog_pres := fun x h => b.inprog_pres x (a.inprog_pres x h)
  inprog_of := fun x h => a.inprog_of x (b.inprog_of x h)
  po_extend := by
    obtain ⟨d1, h1⟩ := a.po_extend
    obtain ⟨d2, h2⟩ := b.po_extend
    exact ⟨d1 ++ d2, by rw [h2, h1, List.append_assoc]⟩
  po_new_fresh := fun x h3 h1 => by
    by_cases h2 : x ∈ s2.post_order
    · exact a.po_new_fresh x h2 h1
    · have := b.po_new_fresh x h3 h2
      exact lt_of_le_of_lt (a.order_mono x) this
  succ_grow := fun f t h => b.succ_grow f t (a.succ_grow f t h)
  pred_grow := fun t p h => b.pred_grow t p (a.pred_grow t p h)
  count_mono := le_trans a.count_mono b.count_mono
  new_fin_big := fun x h1 h3 => by
    by_cases h2 : 0 < s2.visit_order x
    · rw [b.fin_pres x h2]
      exact a.new_fin_big x h1 h2
    · have := b.new_fin_big x (not_lt.1 h2) h3
      exact lt_of_le_of_lt (by exact_mod_cast a.count_mono) this

theorem step_ok_add_branch (st : CFGState) (f t : Nat) : StepOK st (add_branch st f t) where
  order_mono := fun _ => le_refl _
  fin_pres := fun _ _ => rfl
  inprog_pres := fun _ h => h
  inprog_of := fun _ h => h
  po_extend := ⟨[], by simp [add_branch_po]⟩
  po_new_fresh := fun x h h2 => absurd h h2
  succ_grow := fun g y h => (add_branch_succ st f t g y).2 (Or.inl h)
  pred_grow := fun g y h => (add_branch_pred st f t g y).2 (Or.inl h)
  count_mono := le_refl _
  new_fin_big := fun x h1 h2 => absurd h2 (not_lt.2 h1)

theorem wf_initial : WFInv initial_state where
  count_eq := rfl
  orders_idx := fun i h => absurd h (by simp [initial_state])
  mem_iff := fun x => by simp [initial_state]
  bound := fun x => by simp [initial_state]
  src_seen := fun t p h => absurd h (by simp [initial_state])
  sym := fun x y => by simp [initial_state]
  nodup_pred := fun x => by simp [initial_state]
  nodup_succ := fun x => by simp [initial_state]

theorem wf_nodup_po {st : CFGState} (h : WFInv st) : st.post_order.Nodup := by
  rw [List.nodup_iff_injective_get]
  intro i j hij
  have hi := h.orders_idx i.1 i.2
  have hj := h.orders_idx j.1 j.2
  have : (i.1 : Int) + 1 = (j.1 : Int) + 1 := by
    rw [← hi, ← hj, hij]
  have : i.1 = j.1 := by omega
  exact Fin.ext this

theorem wf_order_of_mem {st : CFGState} (h : WFInv st) {x : Nat} (hx : x ∈ st.post_order) :
    0 < st.visit_order x := (h.mem_iff x).2 hx

theorem wf_inj {st : CFGState} (h : WFInv st) {x y : Nat}
    (hx : x ∈ st.post_order) (hy : y ∈ st.post_order)
    (hxy : st.visit_order x = st.visit_order y) : x = y := by
  obtain ⟨i, hi⟩ := List.mem_iff_get.1 hx
  obtain ⟨j, hj⟩ := List.mem_iff_get.1 hy
  have h1 := h.orders_idx i.1 i.2
  have h2 := h.orders_idx j.1 j.2
  rw [show st.post_order.get ⟨i.1, i.2⟩ = st.post_order.get i from rfl, hi] at h1
  rw [show st.post_order.get ⟨j.1, j.2⟩ = st.post_order.get j from rfl, hj] at h2
  have hij : i.1 = j.1 := by
    have : (i.1 : Int) + 1 = (j.1 : Int) + 1 := by rw [← h1, ← h2, hxy]
    omega
  rw [← hi, ← hj]
  congr 1
  exact Fin.ext hij

theorem wf_mark {st : CFGState} {b : Nat} (hb : st.visit_order b < 0) (h : WFInv st) :
    WFInv (mark_in_progress st b) where
  count_eq := h.count_eq
  orders_idx := fun i hi => by
    have hi2 : i < st.post_order.length := hi
    have hne : st.post_order.get ⟨i, hi2⟩ ≠ b := by
      intro he
      have := h.orders_idx i hi2
      rw [he] at this
      omega
    show upd st.visit_order b 0 (st.post_order.get ⟨i, hi2⟩) = (i : Int) + 1
    rw [upd_of_ne _ _ _ hne]
    exact h.orders_idx i hi2
  mem_iff := fun x => by
    by_cases hx : x = b
    · subst hx
      rw [mark_po, mark_vo, upd_same]
      constructor
      · omega
      · intro hmem
        exact absurd ((h.mem_iff x).2 hmem) (by omega)
    · rw [mark_po, mark_vo, upd_of_ne _ _ _ hx]
      exact h.mem_iff x
  bound := fun x => by
    by_cases hx : x = b
    · subst hx
      rw [mark_vo, upd_same]
      exact_mod_cast Nat.zero_le _
    · rw [mark_vo, upd_of_ne _ _ _ hx]
      exact h.bound x
  src_seen := fun t p hp => by
    by_cases hx : p = b
    · subst hx
      rw [mark_vo, upd_same]
    · rw [mark_vo, upd_of_ne _ _ _ hx]
      exact h.src_seen t p hp
  sym := h.sym
  nodup_pred := h.nodup_pred
  nodup_succ := h.nodup_succ

theorem wf_add_branch {st : CFGState} {f t : Nat} (hf : 0 ≤ st.visit_order f)
    (h : WFInv st) : WFInv (add_branch st f t) where
  count_eq := h.count_eq
  orders_idx := h.orders_idx
  mem_iff := h.mem_iff
  bound := h.bound
  src_seen := fun g p hp => by
    rcases (add_branch_pred st f t g p).1 hp with hold | ⟨_, rfl⟩
    · exact h.src_seen g p hold
    · exact hf
  sym := fun x y => by
    rw [add_branch_succ, add_branch_pred, h.sym x y]
    tauto
  nodup_pred := fun x => by
    show ((upd st.preceding_edges t (add_unique (st.preceding_edges t) f)) x).Nodup
    by_cases hx : x = t
    · subst hx
      rw [upd_same]
      exact nodup_add_unique (h.nodup_pred x)
    · rw [upd_of_ne _ _ _ hx]
      exact h.nodup_pred x
  nodup_succ := fun x => by
    show ((upd st.succeeding_edges f (add_unique (st.succeeding_edges f) t)) x).Nodup
    by_cases hx : x = f
    · subst hx
      rw [upd_same]
      exact nodup_add_unique (h.nodup_succ x)
    · rw [upd_of_ne _ _ _ hx]
      exact h.nodup_succ x

theorem wf_finalize {st : CFGState} {b : Nat} (hb : st.visit_order b = 0) (h : WFInv st) :
    WFInv (finalize st b) where
  count_eq := by
    rw [finalize_po]
    show st.visit_count + 1 = _
    rw [List.length_append, h.count_eq]
    rfl
  orders_idx := fun i hi => by
    have hbpo : b ∉ st.post_order := fun hmem => by
      have := (h.mem_iff b).2 hmem
      omega
    have hi2 : i < (st.post_order ++ [b]).length := hi
    have hlen : i < st.post_order.length + 1 := by simpa using hi2
    show upd st.visit_order b ((st.visit_count : Int) + 1)
      ((st.post_order ++ [b]).get ⟨i, hi2⟩) = (i : Int) + 1
    rcases Nat.lt_or_ge i st.post_order.length with hlt | hge
    · rw [List.get_append i hlt]
      have hne : st.post_order.get ⟨i, hlt⟩ ≠ b :=
        fun he => hbpo (he ▸ List.get_mem _ _ _)
      rw [upd_of_ne _ _ _ hne]
      exact h.orders_idx i hlt
    · have hieq : i = st.post_order.length := by omega
      subst hieq
      have hgb : (st.post_order ++ [b]).get ⟨st.post_order.length, hi2⟩ = b := by
        rw [List.get_append_right] <;> simp
      rw [hgb, upd_same, h.count_eq]
  mem_iff := fun x => by
    rw [finalize_po, finalize_vo, List.mem_append, List.mem_singleton]
    by_cases hx : x = b
    · subst hx
      rw [upd_same]
      constructor
      · intro _
        exact Or.inr rfl
      · intro _
        positivity
    · rw [upd_of_ne _ _ _ hx]
      rw [h.mem_iff x]
      tauto
  bound := fun x => by
    show upd st.visit_order b ((st.visit_count : Int) + 1) x ≤ ((st.visit_count + 1 : Nat) : Int)
    by_cases hx : x = b
    · subst hx
      rw [upd_same]
      push_cast
      omega
    · rw [upd_of_ne _ _ _ hx]
      have := h.bound x
      push_cast
      omega
  src_seen := fun t p hp => by
    show (0 : Int) ≤ upd st.visit_order b ((st.visit_count : Int) + 1) p
    by_cases hx : p = b
    · subst hx
      rw [upd_same]
      positivity
    · rw [upd_of_ne _ _ _ hx]
      exact h.src_seen t p hp
  sym := h.sym
  nodup_pred := h.nodup_pred
  nodup_succ := h.nodup_succ

theorem parent_add_branch {st : CFGState} {x : Nat} (h : ParentProp st x) (f t : Nat) :
    ParentProp (add_branch st f t) x := by
  obtain ⟨p, he, h0, himp⟩ := h
  exact ⟨p, (add_branch_succ st f t p x).2 (Or.inl he), h0, himp⟩

theorem parent_finalize {st : CFGState} {x b : Nat} (hb : st.visit_order b = 0)
    (hx : 0 < st.visit_order x) (hbound : ∀ y, st.visit_order y ≤ (st.visit_count : Int))
    (h : ParentProp st x) : ParentProp (finalize st b) x := by
  obtain ⟨p, he, h0, himp⟩ := h
  have hxb : x ≠ b := fun heq => by rw [heq, hb] at hx; omega
  refine ⟨p, he, ?_, ?_⟩
  · show (0 : Int) ≤ upd st.visit_order b ((st.visit_count : Int) + 1) p
    by_cases hp : p = b
    · subst hp
      rw [upd_same]
      positivity
    · rw [upd_of_ne _ _ _ hp]
      exact h0
  · intro hpos
    show upd st.visit_order b ((st.visit_count : Int) + 1) x <
      upd st.visit_order b ((st.visit_count : Int) + 1) p
    rw [upd_of_ne _ _ _ hxb]
    by_cases hp : p = b
    · subst hp
      rw [upd_same]
      have := hbound x
      omega
    · rw [upd_of_ne _ _ _ hp]
      have hpos2 : 0 < st.visit_order p := by
        have : (finalize st b).visit_order p = st.visit_order p :=
          by rw [finalize_vo, upd_of_ne _ _ _ hp]
        rw [this] at hpos
        exact hpos
      exact himp hpos2

theorem parent_transport {stA stB : CFGState} {x : Nat} (hx : 0 < stA.visit_order x)
    (hbound : ∀ y, stA.visit_order y ≤ (stA.visit_count : Int))
    (hs : StepOK stA stB) (h : ParentProp stA x) : ParentProp stB x := by
  obtain ⟨p, he, h0, himp⟩ := h
  refine ⟨p, hs.succ_grow p x he, le_trans h0 (hs.order_mono p), ?_⟩
  intro hpos
  rw [hs.fin_pres x hx]
  by_cases hp : 0 < stA.visit_order p
  · rw [hs.fin_pres p hp] at hpos
    rw [hs.fin_pres p hp]
    exact himp hpos
  · have hbig := hs.new_fin_big p (not_lt.1 hp) hpos
    exact lt_of_le_of_lt (hbound x) hbig

theorem loop_edges_add_branch {bl : Nat → Block} {st : CFGState} (h : LoopEdges bl st)
    (f t : Nat) : LoopEdges bl (add_branch st f t) := by
  intro b hb hm
  obtain ⟨h1, h2⟩ := h b hb hm
  exact ⟨(add_branch_succ st f t b _).2 (Or.inl h1),
         (add_branch_pred st f t _ b).2 (Or.inl h2)⟩

theorem visit_targets_nil (visit : CFGState → Nat → Option (CFGState × Bool))
    (f : Nat) (st : CFGState) : visit_targets visit f st [] = some st := rfl

theorem visit_targets_cons (visit : CFGState → Nat → Option (CFGState × Bool))
    (f : Nat) (st : CFGState) (t : Nat) (ts : List Nat) :
    visit_targets visit f st (t :: ts) =
      match visit st t with
      | none => none
      | some (st2, ok) =>
          visit_targets visit f (if ok then add_branch st2 f t else st2) ts := rfl

theorem post_order_visit_fresh (bl : Nat → Block) (fuel : Nat) (st : CFGState) (b : Nat)
    (h : st.visit_order b < 0) :
    post_order_visit bl (fuel + 1) st b =
      match visit_targets (post_order_visit bl fuel) b (mark_in_progress st b)
          (terminator_targets (bl b).terminator) with
      | none => none
      | some st2 =>
          some (finalize (if (bl b).merge = Merge.MergeLoop
            then add_branch st2 b (bl b).merge_block else st2) b, true) := by
  have hn : ¬ 0 ≤ st.visit_order b := not_le.2 h
  simp only [post_order_visit, if_neg hn]

/-- The central invariant of the post-order DFS: a successful
post_order_visit call (first component) or run of sibling target visits
(second component) is a monotone step; a visit of a fresh block reports
true; and assuming the entry state is well formed, well-formedness and
the loop-header-edge property are preserved, every newly finalized block
other than the call root gains a recorded parent edge, and a fresh root
is appended at the very end of post_order. -/
theorem visit_inv (bl : Nat → Block) : ∀ fuel : Nat,
    (∀ st b st2 r, post_order_visit bl fuel st b = some (st2, r) →
      StepOK st st2 ∧ (st.visit_order b < 0 → r = true) ∧
      (WFInv st →
        WFInv st2 ∧ (LoopEdges bl st → LoopEdges bl st2) ∧
        (∀ x, st.visit_order x < 0 → 0 < st2.visit_order x → x = b ∨ ParentProp st2 x) ∧
        (st.visit_order b < 0 → ∃ mid, st2.post_order = st.post_order ++ mid ++ [b]))) ∧
    (∀ ts st f st2, st.visit_order f = 0 →
      visit_targets (post_order_visit bl fuel) f st ts = some st2 →
      StepOK st st2 ∧
      (WFInv st →
        WFInv st2 ∧ (LoopEdges bl st → LoopEdges bl st2) ∧
        (∀ x, st.visit_order x < 0 → 0 < st2.visit_order x → ParentProp st2 x))) := by
  intro fuel
  induction fuel with
  | zero =>
    constructor
    · intro st b st2 r h
      exact absurd h (by simp [post_order_visit])
    · intro ts st f st2 hf h
      cases ts with
      | nil =>
        rw [visit_targets_nil] at h
        obtain rfl : st = st2 := by simpa using h
        refine ⟨step_ok_refl st, ?_⟩
        intro hwf
        exact ⟨hwf, fun hl => hl, fun x h1 h2 => absurd h2 (by omega)⟩
      | cons t ts =>
        rw [visit_targets_cons] at h
        rw [show post_order_visit bl 0 st t = none from rfl] at h
        exact absurd h (by simp)
  | succ fuel ih =>
    have hL1 : ∀ st b st2 r, post_order_visit bl (fuel + 1) st b = some (st2, r) →
        StepOK st st2 ∧ (st.visit_order b < 0 → r = true) ∧
        (WFInv st →
          WFInv st2 ∧ (LoopEdges bl st → LoopEdges bl st2) ∧
          (∀ x, st.visit_order x < 0 → 0 < st2.visit_order x → x = b ∨ ParentProp st2 x) ∧
          (st.visit_order b < 0 → ∃ mid, st2.post_order = st.post_order ++ mid ++ [b])) := by
      intro st b st2 r h
      by_cases hseen : 0 ≤ st.visit_order b
      · rw [post_order_visit_seen bl fuel st b hseen] at h
        simp only [Option.some.injEq, Prod.mk.injEq] at h
        obtain ⟨hst, hr⟩ := h
        subst hst
        refine ⟨step_ok_refl st, fun hfresh => absurd hseen (not_le.2 hfresh), ?_⟩
        intro hwf
        refine ⟨hwf, fun hl => hl, fun x h1 h2 => absurd h2 (by omega),
          fun hfresh => absurd hseen (not_le.2 hfresh)⟩
      · push_neg at hseen
        rw [post_order_visit_fresh bl fuel st b hseen] at h
        cases hvt : visit_targets (post_order_visit bl fuel) b (mark_in_progress st b)
            (terminator_targets (bl b).terminator) with
        | none =>
          rw [hvt] at h
          exact absurd h (by simp)
        | some stm =>
          rw [hvt] at h
          simp only [Option.some.injEq, Prod.mk.injEq] at h
          obtain ⟨hst2, hr⟩ := h
          have hL2f := (ih.2) (terminator_targets (bl b).terminator)
            (mark_in_progress st b) b stm (upd_same _ _ _) hvt
          obtain ⟨hs12, hrest12⟩ := hL2f
          have hvo1x : ∀ x, x ≠ b →
              (mark_in_progress st b).visit_order x = st.visit_order x :=
            fun x hx => upd_of_ne _ _ _ hx
          have hvo1b : (mark_in_progress st b).visit_order b = 0 := upd_same _ _ _
          have hvomb : stm.visit_order b = 0 := hs12.inprog_pres b hvo1b
          set st3 := if (bl b).merge = Merge.MergeLoop
            then add_branch stm b (bl b).merge_block else stm with hst3def
          have hvo3 : st3.visit_order = stm.visit_order := by
            rw [hst3def]; split <;> rfl
          have hpo3 : st3.post_order = stm.post_order := by
            rw [hst3def]; split <;> rfl
          have hcount3 : st3.visit_count = stm.visit_count := by
            rw [hst3def]; split <;> rfl
          have hs3 : StepOK stm st3 := by
            rw [hst3def]; split
            · exact step_ok_add_branch stm b (bl b).merge_block
            · exact step_ok_refl stm
          have hvo3b : st3.visit_order b = 0 := by rw [hvo3]; exact hvomb
          have hvo2 : st2.visit_order =
              upd st3.visit_order b ((st3.visit_count : Int) + 1) := by
            rw [← hst2]; rfl
          have hpo2 : st2.post_order = st3.post_order ++ [b] := by rw [← hst2]; rfl
          have hcount2 : st2.visit_count = st3.visit_count + 1 := by rw [← hst2]; rfl
          have hvo2x : ∀ x, x ≠ b → st2.visit_order x = stm.visit_order x :=
            fun x hx => by rw [hvo2, upd_of_ne _ _ _ hx, hvo3]
          have hvo2b : st2.visit_order b = (st3.visit_count : Int) + 1 := by
            rw [hvo2, upd_same]
          have hcnt3nn : (0 : Int) ≤ (st3.visit_count : Int) := Int.ofNat_nonneg _
          have hedges2succ : ∀ g y, y ∈ st3.succeeding_edges g →
              y ∈ st2.succeeding_edges g := by
            intro g y hy
            rw [← hst2]
            exact hy
          have hedges2pred : ∀ g y, y ∈ st3.preceding_edges g →
              y ∈ st2.preceding_edges g := by
            intro g y hy
            rw [← hst2]
            exact hy
          have hstep : StepOK st st2 := by
            refine ⟨?_, ?_, ?_, ?_, ?_, ?_, ?_, ?_, ?_, ?_⟩
            · intro x
              by_cases hx : x = b
              · subst hx
                rw [hvo2b]
                omega
              · rw [hvo2x x hx]
                have := hs12.order_mono x
                rw [hvo1x x hx] at this
                exact this
            · intro x hx
              have hxb : x ≠ b := fun heq => by rw [heq] at hx; omega
              have hx1 : 0 < (mark_in_progress st b).visit_order x := by
                rw [hvo1x x hxb]; exact hx
              have h1 := hs12.fin_pres x hx1
              rw [hvo1x x hxb] at h1
              rw [hvo2x x hxb, h1]
            · intro x hx
              have hxb : x ≠ b := fun heq => by rw [heq] at hx; omega
              rw [hvo2x x hxb]
              have hx1 : (mark_in_progress st b).visit_order x = 0 := by
                rw [hvo1x x hxb]; exact hx
              exact hs12.inprog_pres x hx1
            · intro x hx
              have hxb : x ≠ b := fun heq => by
                rw [heq, hvo2b] at hx
                omega
              rw [hvo2x x hxb] at hx
              have := hs12.inprog_of x hx
              rw [hvo1x x hxb] at this
              exact this
            · obtain ⟨d, hd⟩ := hs12.po_extend
              refine ⟨d ++ [b], ?_⟩
              rw [hpo2, hpo3, hd, mark_po, List.append_assoc]
            · intro x hmem hnot
              rw [hpo2] at hmem
              rcases List.mem_append.1 hmem with hmem3 | hmemb
              · rw [hpo3] at hmem3
                have hnot1 : x ∉ (mark_in_progress st b).post_order := by
                  rw [mark_po]; exact hnot
                have := hs12.po_new_fresh x hmem3 hnot1
                have hxb : x ≠ b := fun heq => by rw [heq, hvo1b] at this; omega
                rw [hvo1x x hxb] at this
                exact this
              · rw [List.mem_singleton] at hmemb
                subst hmemb
                exact hseen
            · intro g y hy
              refine hedges2succ g y ?_
              rw [hpo3] at *
              exact hs3.succ_grow g y (hs12.succ_grow g y hy)
            · intro g y hy
              refine hedges2pred g y ?_
              exact hs3.pred_grow g y (hs12.pred_grow g y hy)
            · rw [hcount2, hcount3]
              have hcm := hs12.count_mono
              have hmc : (mark_in_progress st b).visit_count = st.visit_count := rfl
              rw [hmc] at hcm
              omega
            · intro x hx0 hx2
              by_cases hx : x = b
              · subst hx
                rw [hvo2b, hcount3]
                have : st.visit_count ≤ stm.visit_count := hs12.count_mono
                omega
              · rw [hvo2x x hx] at hx2 ⊢
                have hx1 : (mark_in_progress st b).visit_order x ≤ 0 := by
                  rw [hvo1x x hx]; exact hx0
                exact hs12.new_fin_big x hx1 hx2
          refine ⟨hstep, fun _ => hr.symm, ?_⟩
          intro hwf
          have hwf1 : WFInv (mark_in_progress st b) := wf_mark hseen hwf
          obtain ⟨hwfm, hloopm, hparm⟩ := hrest12 hwf1
          have hwf3 : WFInv st3 := by
            rw [hst3def]; split
            · exact wf_add_branch (by rw [hvomb]) hwfm
            · exact hwfm
          have hwf2 : WFInv st2 := by
            rw [← hst2]
            exact wf_finalize hvo3b hwf3
          refine ⟨hwf2, ?_, ?_, ?_⟩
          · intro hle
            have hle1 : LoopEdges bl (mark_in_progress st b) := hle
            have hlem : LoopEdges bl stm := hloopm hle1
            have hle3 : LoopEdges bl st3 := by
              rw [hst3def]; split
              · exact loop_edges_add_branch hlem b (bl b).merge_block
              · exact hlem
            intro y hy hmy
            rw [← hst2, finalize_po, List.mem_append] at hy
            rcases hy with hy3 | hyb
            · obtain ⟨e1, e2⟩ := hle3 y hy3 hmy
              exact ⟨hedges2succ _ _ e1, hedges2pred _ _ e2⟩
            · rw [List.mem_singleton] at hyb
              subst hyb
              have hb3 : (bl y).merge_block ∈ st3.succeeding_edges y ∧
                  y ∈ st3.preceding_edges ((bl y).merge_block) := by
                rw [hst3def, if_pos hmy]
                exact ⟨(add_branch_succ stm y (bl y).merge_block y _).2 (Or.inr ⟨rfl, rfl⟩),
                       (add_branch_pred stm y (bl y).merge_block _ y).2 (Or.inr ⟨rfl, rfl⟩)⟩
              exact ⟨hedges2succ _ _ hb3.1, hedges2pred _ _ hb3.2⟩
          · intro x hxfresh hx2
            by_cases hxb : x = b
            · exact Or.inl hxb
            · right
              rw [hvo2x x hxb] at hx2
              have hx1fresh : (mark_in_progress st b).visit_order x < 0 := by
                rw [hvo1x x hxb]; exact hxfresh
              have hpm : ParentProp stm x := hparm x hx1fresh hx2
              have hp3 : ParentProp st3 x := by
                rw [hst3def]; split
                · exact parent_add_branch hpm b (bl b).merge_block
                · exact hpm
              have hx3 : 0 < st3.visit_order x := by rw [hvo3]; exact hx2
              have hp2 : ParentProp st2 x := by
                rw [← hst2]
                exact parent_finalize hvo3b hx3 hwf3.bound hp3
              exact hp2
          · intro _
            obtain ⟨d, hd⟩ := hs12.po_extend
            refine ⟨d, ?_⟩
            rw [hpo2, hpo3, hd, mark_po]
    refine ⟨hL1, ?_⟩
    intro ts
    induction ts with
    | nil =>
      intro st f st2 hf h
      rw [visit_targets_nil] at h
      obtain rfl : st = st2 := by simpa using h
      refine ⟨step_ok_refl st, ?_⟩
      intro hwf
      exact ⟨hwf, fun hl => hl, fun x h1 h2 => absurd h2 (by omega)⟩
    | cons t ts iht =>
      intro st f st2 hf h
      rw [visit_targets_cons] at h
      cases hv : post_order_visit bl (fuel + 1) st t with
      | none =>
        rw [hv] at h
        exact absurd h (by simp)
      | some pr =>
        obtain ⟨stA, ok⟩ := pr
        rw [hv] at h
        obtain ⟨hsA, hrA, hwfA⟩ := hL1 st t stA ok hv
        set stB := if ok then add_branch stA f t else stA with hstBdef
        have hsAB : StepOK stA stB := by
          rw [hstBdef]; split
          · exact step_ok_add_branch stA f t
          · exact step_ok_refl stA
        have hvoB : stB.visit_order = stA.visit_order := by
          rw [hstBdef]; split <;> rfl
        have hfA : stA.visit_order f = 0 := hsA.inprog_pres f hf
        have hfB : stB.visit_order f = 0 := by rw [hvoB]; exact hfA
        obtain ⟨hsB2, hrestB2⟩ := iht stB f st2 hfB h
        refine ⟨step_ok_trans (step_ok_trans hsA hsAB) hsB2, ?_⟩
        intro hwf
        obtain ⟨hwfA2, hloopA, hparA, _⟩ := hwfA hwf
        have hwfB : WFInv stB := by
          rw [hstBdef]; split
          · exact wf_add_branch (by rw [hfA]) hwfA2
          · exact hwfA2
        obtain ⟨hwf2, hloopB2, hparB2⟩ := hrestB2 hwfB
        refine ⟨hwf2, ?_, ?_⟩
        · intro hle
          refine hloopB2 ?_
          have hleA := hloopA hle
          rw [hstBdef]; split
          · exact loop_edges_add_branch hleA f t
          · exact hleA
        · intro x hxfresh hx2
          by_cases hposA : 0 < stA.visit_order x
          · have hxB : 0 < stB.visit_order x := by rw [hvoB]; exact hposA
            rcases hparA x hxfresh hposA with rfl | hpp
            · have hok : ok = true := hrA hxfresh
              have hBdef : stB = add_branch stA f x := by
                rw [hstBdef, hok]
                simp
              have hppB : ParentProp stB x := by
                rw [hBdef]
                refine ⟨f, (add_branch_succ stA f x f x).2 (Or.inr ⟨rfl, rfl⟩), ?_, ?_⟩
                · show (0 : Int) ≤ (add_branch stA f x).visit_order f
                  rw [add_branch_vo, hfA]
                · intro hpos
                  rw [add_branch_vo, hfA] at hpos
                  omega
              exact parent_transport hxB hwfB.bound hsB2 hppB
            · have hppB : ParentProp stB x := by
                rw [hstBdef]; split
                · exact parent_add_branch hpp f t
                · exact hpp
              exact parent_transport hxB hwfB.bound hsB2 hppB
          · have hne : stA.visit_order x ≠ 0 := fun h0 => by
              have := hsA.inprog_of x h0
              omega
            have hfreshA : stA.visit_order x < 0 := by omega
            have hfreshB : stB.visit_order x < 0 := by rw [hvoB]; exact hfreshA
            exact hparB2 x hfreshB hx2

/-- Facts about the final state of a successful DFS from the freshly
cleared state: it is well formed, carries the loop-header edges, has no
in-progress blocks left, finishes with the entry block at the very end
of post_order, and gives every non-entry visited block a recorded
predecessor inside post_order with a strictly larger visit order. -/
theorem build_post_order_facts (bl : Nat → Block) (entry fuel : Nat) (st : CFGState)
    (h : build_post_order bl entry fuel = some st) :
    WFInv st ∧ LoopEdges bl st ∧
    (∀ x, 0 ≤ st.visit_order x → 0 < st.visit_order x) ∧
    (∃ mid, st.post_order = mid ++ [entry]) ∧
    (∀ x ∈ st.post_order, x ≠ entry →
      ∃ p, p ∈ st.preceding_edges x ∧ p ∈ st.post_order ∧
        st.visit_order x < st.visit_order p) := by
  unfold build_post_order at h
  cases hv : post_order_visit bl fuel initial_state entry with
  | none =>
    rw [hv] at h
    exact absurd h (by simp)
  | some pr =>
    obtain ⟨st0, r⟩ := pr
    rw [hv] at h
    simp only [Option.map_some', Option.some.injEq] at h
    subst h
    obtain ⟨hstep, hrtrue, hwfpart⟩ := (visit_inv bl fuel).1 initial_state entry st0 r hv
    have hfresh : initial_state.visit_order entry < 0 := by norm_num [initial_state]
    obtain ⟨hwf, hloop, hpar, hshape⟩ := hwfpart wf_initial
    have hnoip : ∀ x, 0 ≤ st0.visit_order x → 0 < st0.visit_order x := by
      intro x hx
      rcases lt_or_eq_of_le hx with h1 | h1
      · exact h1
      · exfalso
        have h2 := hstep.inprog_of x h1.symm
        norm_num [initial_state] at h2
    refine ⟨hwf, hloop (fun b hb => absurd hb (List.not_mem_nil b)), hnoip, ?_, ?_⟩
    · obtain ⟨mid, hm⟩ := hshape hfresh
      exact ⟨mid, by simpa [initial_state] using hm⟩
    · intro x hx hxe
      have hfx : initial_state.visit_order x < 0 := by norm_num [initial_state]
      have hpos : 0 < st0.visit_order x := (hwf.mem_iff x).2 hx
      rcases hpar x hfx hpos with rfl | hpp
      · exact absurd rfl hxe
      · obtain ⟨p, hedge, hp0, himp⟩ := hpp
        have hppos : 0 < st0.visit_order p := hnoip p hp0
        exact ⟨p, (hwf.sym p x).1 hedge, (hwf.mem_iff p).1 hppos, himp hppos⟩

/-- When post_order finishes with the entry block, the entry carries the
maximal visit order, equal to the length of post_order. -/
theorem entry_last_order {st : CFGState} (hwf : WFInv st) {entry : Nat} {mid : List Nat}
    (hshape : st.post_order = mid ++ [entry]) :
    entry ∈ st.post_order ∧
    st.visit_order entry = (st.post_order.length : Int) ∧
    (∀ x ∈ st.post_order, st.visit_order x ≤ st.visit_order entry) := by
  have hmem : entry ∈ st.post_order := by rw [hshape]; simp
  have hlen : st.post_order.length = mid.length + 1 := by rw [hshape]; simp
  have hml : mid.length < st.post_order.length := by omega
  have horder := hwf.orders_idx mid.length hml
  have hget : st.post_order.get ⟨mid.length, hml⟩ = entry := by
    rw [List.get_of_eq hshape]
    rw [List.get_append_right] <;> simp
  rw [hget] at horder
  have hvo : st.visit_order entry = (st.post_order.length : Int) := by
    rw [horder]
    push_cast [hlen]
    ring
  refine ⟨hmem, hvo, ?_⟩
  intro x _
  have hb := hwf.bound x
  rw [hwf.count_eq] at hb
  rw [hvo]
  exact hb

theorem fcd_succ (st : CFGState) (idom : Nat → Nat) (fuel : Nat) (a b : Nat) :
    find_common_dominator st idom (fuel + 1) a b =
      if a = b then some a
      else
        match get_visit_order st a, get_visit_order st b with
        | some va, some vb =>
            if va < vb then find_common_dominator st idom fuel (idom a) b
            else find_common_dominator st idom fuel a (idom b)
        | _, _ => none := rfl

theorem fcd_dead_zero (st : CFGState) (idom : Nat → Nat) (h0 : st.visit_order 0 < 0) :
    ∀ fuel c, c ≠ 0 → find_common_dominator st idom fuel 0 c = none := by
  intro fuel c hc
  cases fuel with
  | zero => rfl
  | succ fuel =>
    rw [fcd_succ, if_neg (fun h => hc h.symm)]
    have hg : get_visit_order st 0 = none := by
      unfold get_visit_order
      rw [if_neg (not_le.2 h0)]
    rw [hg]

theorem fcd_dead_self (st : CFGState) (idom : Nat → Nat) (b g : Nat)
    (hidb : idom b = b) (hbg : b ≠ g)
    (hvb : 0 < st.visit_order b) (hvg : 0 < st.visit_order g)
    (hlt : st.visit_order b < st.visit_order g) :
    ∀ fuel, find_common_dominator st idom fuel b g = none := by
  intro fuel
  induction fuel with
  | zero => rfl
  | succ fuel ihf =>
    rw [fcd_succ, if_neg hbg, get_visit_order_pos st b hvb, get_visit_order_pos st g hvg]
    dsimp only
    rw [if_pos hlt, hidb]
    exact ihf

theorem fcd_dead_bad (st : CFGState) (idom : Nat → Nat) (b g w : Nat)
    (hvb : 0 < st.visit_order b) (hvg : 0 < st.visit_order g)
    (hvw : 0 < st.visit_order w)
    (hbg : st.visit_order b < st.visit_order g)
    (hwb : st.visit_order w < st.visit_order b)
    (hidb : idom b = w) (hidw : idom w = 0)
    (h0 : st.visit_order 0 < 0) :
    ∀ fuel, find_common_dominator st idom fuel b g = none := by
  intro fuel
  cases fuel with
  | zero => rfl
  | succ f1 =>
    have hne : b ≠ g := fun h => by rw [h] at hbg; omega
    rw [fcd_succ, if_neg hne, get_visit_order_pos st b hvb, get_visit_order_pos st g hvg]
    dsimp only
    rw [if_pos hbg, hidb]
    cases f1 with
    | zero => rfl
    | succ f2 =>
      have hne2 : w ≠ g := fun h => by rw [h] at hwb; omega
      have hwg : st.visit_order w < st.visit_order g := by omega
      rw [fcd_succ, if_neg hne2, get_visit_order_pos st w hvw, get_visit_order_pos st g hvg]
      dsimp only
      rw [if_pos hwg, hidw]
      have hg0 : g ≠ 0 := fun h => by rw [h] at hvg; omega
      exact fcd_dead_zero st idom h0 f2 g hg0

/-- When the dominator map ascends along a set Q closed under it (each
member maps to itself or to a Q member with strictly larger visit
order), a successful find_common_dominator walk from two Q members ends
in Q at a visit order at least as large as both starting points. -/
theorem fcd_ascend (st : CFGState) (idom : Nat → Nat) (Q : Nat → Prop)
    (hQ : ∀ x, Q x → x ∈ st.post_order ∧
      (idom x = x ∨ (Q (idom x) ∧ st.visit_order x < st.visit_order (idom x))))
    (hvis : ∀ x ∈ st.post_order, 0 < st.visit_order x) :
    ∀ fuel a b r, Q a → Q b → find_common_dominator st idom fuel a b = some r →
      Q r ∧ st.visit_order a ≤ st.visit_order r ∧ st.visit_order b ≤ st.visit_order r := by
  intro fuel
  induction fuel with
  | zero =>
    intro a b r _ _ h
    exact absurd h (by simp [find_common_dominator])
  | succ fuel ihf =>
    intro a b r hQa hQb h
    by_cases hab : a = b
    · subst hab
      rw [fcd_succ, if_pos rfl] at h
      obtain rfl : a = r := by simpa using h
      exact ⟨hQa, le_refl _, le_refl _⟩
    · have hva : 0 < st.visit_order a := hvis a (hQ a hQa).1
      have hvb2 : 0 < st.visit_order b := hvis b (hQ b hQb).1
      rw [fcd_succ, if_neg hab, get_visit_order_pos st a hva,
        get_visit_order_pos st b hvb2] at h
      dsimp only at h
      by_cases hlt : st.visit_order a < st.visit_order b
      · rw [if_pos hlt] at h
        rcases (hQ a hQa).2 with heq | ⟨hQia, hlt2⟩
        · rw [heq] at h
          exact ihf a b r hQa hQb h
        · obtain ⟨hr1, hr2, hr3⟩ := ihf (idom a) b r hQia hQb h
          exact ⟨hr1, le_trans (le_of_lt hlt2) hr2, hr3⟩
      · rw [if_neg hlt] at h
        rcases (hQ b hQb).2 with heq | ⟨hQib, hlt2⟩
        · rw [heq] at h
          exact ihf a b r hQa hQb h
        · obtain ⟨hr1, hr2, hr3⟩ := ihf a (idom b) r hQa hQib h
          exact ⟨hr1, hr2, le_trans (le_of_lt hlt2) hr3⟩

/-- The fold over the recorded predecessors of a non-entry block b in
build_immediate_dominators, started from a candidate value v for b (0
before seeding). Provided either the candidate or some remaining
predecessor has a visit order above b, a successful fold ends with b
mapped to a visited block of strictly larger visit order, or to b
itself; every other outcome makes some step fail. -/
theorem idom_fold_preds (st : CFGState) (fuel : Nat) (entry b : Nat) (idom0 : Nat → Nat)
    (hvis : ∀ x ∈ st.post_order, 0 < st.visit_order x)
    (hinj : ∀ x ∈ st.post_order, ∀ y ∈ st.post_order,
      st.visit_order x = st.visit_order y → x = y)
    (h0 : st.visit_order 0 < 0)
    (hb_po : b ∈ st.post_order) (hb_ne : b ≠ entry)
    (hentry_po : entry ∈ st.post_order)
    (hmax : ∀ x ∈ st.post_order, st.visit_order x ≤ st.visit_order entry)
    (hIdom : IdomInv st entry (st.visit_order b) idom0) :
    ∀ (ps : List Nat) (v : Nat) (m2 : Nat → Nat), (∀ p ∈ ps, p ∈ st.post_order) →
      ((v ∈ st.post_order ∧ st.visit_order b < st.visit_order v) ∨ v = b ∨
        ((v = 0 ∨ (v ∈ st.post_order ∧ st.visit_order v < st.visit_order b)) ∧
          ∃ g ∈ ps, g ∈ st.post_order ∧ st.visit_order b < st.visit_order g)) →
      ps.foldlM (fun m e => idom_step st fuel b m e) (upd idom0 b v) = some m2 →
      ∃ v2, m2 = upd idom0 b v2 ∧
        ((v2 ∈ st.post_order ∧ st.visit_order b < st.visit_order v2) ∨ v2 = b) := by
  have hvo_b : 0 < st.visit_order b := hvis b hb_po
  have hb0 : b ≠ 0 := fun h => by rw [h] at hvo_b; omega
  have hvo_entry_gt : st.visit_order b < st.visit_order entry := by
    have hle := hmax b hb_po
    rcases lt_or_eq_of_le hle with h1 | h1
    · exact h1
    · exact absurd (hinj b hb_po entry hentry_po h1) hb_ne
  obtain ⟨hid_e, hid_proc, hid_un⟩ := hIdom
  intro ps
  induction ps with
  | nil =>
    intro v m2 _ hstate h
    rw [List.foldlM_nil] at h
    obtain rfl : upd idom0 b v = m2 := by simpa using h
    refine ⟨v, rfl, ?_⟩
    rcases hstate with h1 | h2 | ⟨_, ⟨g, hg, _⟩⟩
    · exact Or.inl h1
    · exact Or.inr h2
    · exact absurd hg (List.not_mem_nil g)
  | cons p ps ihp =>
    intro v m2 hps hstate h
    rw [List.foldlM_cons] at h
    have hp_po : p ∈ st.post_order := hps p (List.mem_cons_self p ps)
    have hps2 : ∀ q ∈ ps, q ∈ st.post_order := fun q hq => hps q (List.mem_cons_of_mem p hq)
    have hvo_p : 0 < st.visit_order p := hvis p hp_po
    have hp_tri : p = b ∨ st.visit_order b < st.visit_order p ∨
        st.visit_order p < st.visit_order b := by
      by_cases hpb : p = b
      · exact Or.inl hpb
      · have hne : st.visit_order p ≠ st.visit_order b :=
          fun he => hpb (hinj p hp_po b hb_po he)
        omega
    by_cases hv0 : v = 0
    · subst hv0
      have hstep : idom_step st fuel b (upd idom0 b 0) p = some (upd idom0 b p) := by
        unfold idom_step
        rw [upd_same]
        rw [if_neg (by simp)]
        rw [upd_upd]
      rw [hstep] at h
      have hgood_ahead : ∃ g ∈ p :: ps, g ∈ st.post_order ∧
          st.visit_order b < st.visit_order g := by
        rcases hstate with ⟨h1, _⟩ | h2 | ⟨_, hg⟩
        · exact absurd (hvis 0 h1) (by omega)
        · exact absurd h2 (Ne.symm hb0)
        · exact hg
      rcases hp_tri with hpb | hgt | hlt
      · exact ihp p m2 hps2 (Or.inr (Or.inl hpb)) h
      · exact ihp p m2 hps2 (Or.inl ⟨hp_po, hgt⟩) h
      · obtain ⟨g, hgm, hgpo, hggt⟩ := hgood_ahead
        have hgps : g ∈ ps := by
          rcases List.mem_cons.1 hgm with rfl | hgm2
          · omega
          · exact hgm2
        exact ihp p m2 hps2 (Or.inr (Or.inr ⟨Or.inr ⟨hp_po, hlt⟩, g, hgps, hgpo, hggt⟩)) h
    · -- the candidate is nonzero: the step takes the refinement branch
      have hv_cases : (v ∈ st.post_order ∧ st.visit_order b < st.visit_order v) ∨ v = b ∨
          (v ∈ st.post_order ∧ st.visit_order v < st.visit_order b) := by
        rcases hstate with h1 | h2 | ⟨hv2, _⟩
        · exact Or.inl h1
        · exact Or.inr (Or.inl h2)
        · rcases hv2 with h3 | h3
          · exact absurd h3 hv0
          · exact Or.inr (Or.inr h3)
      have hv_ne : (upd idom0 b v) b ≠ 0 := by
        rw [upd_same]
        exact hv0
      -- evaluate the map at p
      rcases hp_tri with hpb | hpgt | hplt
      · -- self predecessor: the walk meets immediately
        subst hpb
        cases fuel with
        | zero =>
          have hstep0 : idom_step st 0 p (upd idom0 p v) p = none := by
            unfold idom_step
            rw [upd_same]
            rw [if_pos hv0, if_neg hv0]
            rfl
          rw [hstep0] at h
          simp at h
        | succ f =>
          have hfcd : find_common_dominator st (upd idom0 p v) (f + 1) p p = some p := by
            rw [fcd_succ, if_pos rfl]
          have hstep : idom_step st (f + 1) p (upd idom0 p v) p = some (upd idom0 p p) := by
            unfold idom_step
            rw [upd_same]
            rw [if_pos hv0, if_neg hv0, hfcd]
            dsimp only
            rw [upd_upd]
          rw [hstep] at h
          exact ihp p m2 hps2 (Or.inr (Or.inl rfl)) h
      · -- a predecessor with larger visit order: already processed
        have hpb : p ≠ b := fun he => by rw [he] at hpgt; omega
        have hp_proc := hid_proc p hp_po (Or.inl hpgt)
        have hmp : (upd idom0 b v) p = idom0 p := upd_of_ne _ _ _ hpb
        rcases hv_cases with ⟨hv_po, hv_gt⟩ | hvb | ⟨hv_po, hv_lt⟩
        · -- good candidate, good predecessor: ascend
          cases hfcd : find_common_dominator st (upd idom0 b v) fuel b p with
          | none =>
            have hstep0 : idom_step st fuel b (upd idom0 b v) p = none := by
              unfold idom_step
              rw [upd_same, if_pos hv0, upd_of_ne _ _ _ hpb, if_neg hp_proc.1, hfcd]
            rw [hstep0] at h
            simp at h
          | some d =>
            have hQ : ∀ x, (x ∈ st.post_order ∧ st.visit_order b ≤ st.visit_order x) →
                x ∈ st.post_order ∧
                ((upd idom0 b v) x = x ∨
                  ((upd idom0 b v) x ∈ st.post_order ∧
                    st.visit_order b ≤ st.visit_order ((upd idom0 b v) x)) ∧
                  st.visit_order x < st.visit_order ((upd idom0 b v) x)) := by
              rintro x ⟨hx_po, hx_ge⟩
              refine ⟨hx_po, ?_⟩
              by_cases hxb : x = b
              · subst hxb
                rw [upd_same]
                exact Or.inr ⟨⟨hv_po, le_of_lt hv_gt⟩, hv_gt⟩
              · rw [upd_of_ne _ _ _ hxb]
                have hxgt : st.visit_order b < st.visit_order x :=
                  lt_of_le_of_ne hx_ge (fun he => hxb (hinj x hx_po b hb_po he.symm))
                have hx_proc := hid_proc x hx_po (Or.inl hxgt)
                rcases hx_proc.2.2 with heq | hlt2
                · exact Or.inl heq
                · exact Or.inr ⟨⟨hx_proc.2.1, le_trans (le_of_lt hxgt) (le_of_lt hlt2)⟩, hlt2⟩
            obtain ⟨⟨hd_po, hd_ge⟩, hba, hpa⟩ :=
              fcd_ascend st (upd idom0 b v)
                (fun x => x ∈ st.post_order ∧ st.visit_order b ≤ st.visit_order x)
                hQ hvis fuel b p d ⟨hb_po, le_refl _⟩ ⟨hp_po, le_of_lt hpgt⟩ hfcd
            have hstep : idom_step st fuel b (upd idom0 b v) p = some (upd idom0 b d) := by
              unfold idom_step
              rw [upd_same, if_pos hv0, upd_of_ne _ _ _ hpb, if_neg hp_proc.1, hfcd]
              dsimp only
              rw [upd_upd]
            rw [hstep] at h
            have hd_gt : st.visit_order b < st.visit_order d := lt_of_lt_of_le hpgt hpa
            exact ihp d m2 hps2 (Or.inl ⟨hd_po, hd_gt⟩) h
        · -- the candidate is b itself: the walk spins on b forever
          rw [hvb] at h
          have hfcd : find_common_dominator st (upd idom0 b b) fuel b p = none :=
            fcd_dead_self st (upd idom0 b b) b p (upd_same _ _ _)
              (fun he => by rw [he] at hpgt; omega) hvo_b hvo_p hpgt fuel
          have hstep0 : idom_step st fuel b (upd idom0 b b) p = none := by
            unfold idom_step
            rw [upd_same]
            rw [if_pos hb0, upd_of_ne _ _ _ hpb, if_neg hp_proc.1, hfcd]
          rw [hstep0] at h
          simp at h
        · -- a bad candidate: the walk drops to an unprocessed block then to 0
          have hvb2 : v ≠ b := fun he => by rw [he] at hv_lt; omega
          have hv_ne_entry : v ≠ entry := fun he => by rw [he] at hv_lt; omega
          have hmv : (upd idom0 b v) v = idom0 v := upd_of_ne _ _ _ hvb2
          have hv_un : idom0 v = 0 := by
            refine hid_un v ?_
            rintro ⟨hv_po2, hv_or⟩
            rcases hv_or with h1 | h1
            · omega
            · exact hv_ne_entry h1
          have hfcd : find_common_dominator st (upd idom0 b v) fuel b p = none :=
            fcd_dead_bad st (upd idom0 b v) b p v hvo_b hvo_p (hvis v hv_po)
              hpgt hv_lt (upd_same _ _ _) (by rw [hmv, hv_un]) h0 fuel
          have hstep0 : idom_step st fuel b (upd idom0 b v) p = none := by
            unfold idom_step
            rw [upd_same, if_pos hv0, upd_of_ne _ _ _ hpb, if_neg hp_proc.1, hfcd]
          rw [hstep0] at h
          simp at h
      · -- a predecessor with smaller visit order: still unprocessed, the
        -- assert on its dominator fires
        have hpb : p ≠ b := fun he => by rw [he] at hplt; omega
        have hp_ne_entry : p ≠ entry := fun he => by rw [he] at hplt; omega
        have hp_un : idom0 p = 0 := by
          refine hid_un p ?_
          rintro ⟨hp_po2, hp_or⟩
          rcases hp_or with h1 | h1
          · omega
          · exact hp_ne_entry h1
        have hstep0 : idom_step st fuel b (upd idom0 b v) p = none := by
          unfold idom_step
          rw [upd_same, if_pos hv0, upd_of_ne _ _ _ hpb, hp_un, if_pos rfl]
        rw [hstep0] at h
        simp at h

/-- When the entry block (processed first, with the maximal visit
order) has recorded predecessors, each fold step either leaves the map
unchanged (a self edge) or fails on the assert, because every other
block is still unprocessed. -/
theorem idom_fold_entry (st : CFGState) (fuel : Nat) (entry : Nat) (idom0 : Nat → Nat)
    (hentry0 : entry ≠ 0) (hid_e : idom0 entry = entry)
    (hid_un : ∀ y, y ≠ entry → idom0 y = 0) :
    ∀ (ps : List Nat) (m2 : Nat → Nat),
      ps.foldlM (fun m e => idom_step st fuel entry m e) idom0 = some m2 → m2 = idom0 := by
  intro ps
  induction ps with
  | nil =>
    intro m2 h
    rw [List.foldlM_nil] at h
    simpa using h.symm
  | cons p ps ihp =>
    intro m2 h
    rw [List.foldlM_cons] at h
    by_cases hpe : p = entry
    · subst hpe
      cases fuel with
      | zero =>
        have hstep0 : idom_step st 0 p idom0 p = none := by
          unfold idom_step
          rw [hid_e]
          rw [if_pos hentry0, if_neg hentry0]
          rfl
        rw [hstep0] at h
        simp at h
      | succ f =>
        have hfcd : find_common_dominator st idom0 (f + 1) p p = some p := by
          rw [fcd_succ, if_pos rfl]
        have hstep : idom_step st (f + 1) p idom0 p = some (upd idom0 p p) := by
          unfold idom_step
          rw [hid_e]
          rw [if_pos hentry0, if_neg hentry0, hfcd]
        have hupd : upd idom0 p p = idom0 := by
          have h2 := upd_self idom0 p
          rw [hid_e] at h2
          exact h2
        rw [hstep, hupd] at h
        exact ihp m2 h
    · have hp0 : idom0 p = 0 := hid_un p hpe
      have hstep0 : idom_step st fuel entry idom0 p = none := by
        unfold idom_step
        rw [hid_e, hp0]
        rw [if_pos hentry0, if_pos rfl]
      rw [hstep0] at h
      simp at h

/-- One iteration of the reverse post-order walk: handling the block
with visit order kk extends the dominator invariant from kk to
kk minus one, or fails. -/
theorem idom_block_step (st : CFGState) (fuel : Nat) (entry b : Nat)
    (idom0 m2 : Nat → Nat)
    (hwf : WFInv st) (h0 : st.visit_order 0 < 0)
    (hb_po : b ∈ st.post_order)
    (hentry_po : entry ∈ st.post_order)
    (hmax : ∀ x ∈ st.post_order, st.visit_order x ≤ st.visit_order entry)
    (hentry0 : entry ≠ 0)
    (hpreds_po : ∀ t p, p ∈ st.preceding_edges t → p ∈ st.post_order)
    (hparents : ∀ x ∈ st.post_order, x ≠ entry →
      ∃ p, p ∈ st.preceding_edges x ∧ p ∈ st.post_order ∧
        st.visit_order x < st.visit_order p)
    (hIdom : IdomInv st entry (st.visit_order b) idom0)
    (h : idom_block st fuel idom0 b = some m2) :
    IdomInv st entry (st.visit_order b - 1) m2 := by
  have hvis : ∀ x ∈ st.post_order, 0 < st.visit_order x :=
    fun x hx => wf_order_of_mem hwf hx
  have hinj : ∀ x ∈ st.post_order, ∀ y ∈ st.post_order,
      st.visit_order x = st.visit_order y → x = y :=
    fun x hx y hy he => wf_inj hwf hx hy he
  have hb0 : b ≠ 0 := fun he => by
    have := hvis b hb_po
    rw [he] at this
    omega
  unfold idom_block at h
  by_cases hpe : st.preceding_edges b = []
  · rw [if_pos hpe] at h
    obtain rfl : idom0 = m2 := by simpa using h
    by_cases hbe : b = entry
    · subst hbe
      refine ⟨hIdom.1, ?_, ?_⟩
      · intro x hx hor
        rcases hor with hgt | heq
        · have hle := hmax x hx
          have hxe : x = b := hinj x hx b hb_po (by omega)
          exact hIdom.2.1 x hx (Or.inr hxe)
        · exact hIdom.2.1 x hx (Or.inr heq)
      · intro y hy
        refine hIdom.2.2 y ?_
        rintro ⟨hy_po, h1 | h1⟩
        · exact hy ⟨hy_po, Or.inl (by omega)⟩
        · exact hy ⟨hy_po, Or.inr h1⟩
    · obtain ⟨p, hp, _, _⟩ := hparents b hb_po hbe
      rw [hpe] at hp
      exact absurd hp (List.not_mem_nil p)
  · rw [if_neg hpe] at h
    by_cases hbe : b = entry
    · have hid_un2 : ∀ y, y ≠ entry → idom0 y = 0 := by
        intro y hy
        refine hIdom.2.2 y ?_
        rintro ⟨hy_po, h1 | h1⟩
        · have hle := hmax y hy_po
          rw [← hbe] at hle
          omega
        · exact hy h1
      have hm2 : m2 = idom0 := by
        subst hbe
        exact idom_fold_entry st fuel b idom0 hentry0 hIdom.1 hid_un2
          (st.preceding_edges b) m2 h
      subst hm2
      subst hbe
      refine ⟨hIdom.1, ?_, ?_⟩
      · intro x hx hor
        rcases hor with hgt | heq
        · have hle := hmax x hx
          have hxe : x = b := hinj x hx b hb_po (by omega)
          exact hIdom.2.1 x hx (Or.inr hxe)
        · exact hIdom.2.1 x hx (Or.inr heq)
      · intro y hy
        refine hIdom.2.2 y ?_
        rintro ⟨hy_po, h1 | h1⟩
        · exact hy ⟨hy_po, Or.inl (by omega)⟩
        · exact hy ⟨hy_po, Or.inr h1⟩
    · have hb0' : idom0 b = 0 := by
        refine hIdom.2.2 b ?_
        rintro ⟨_, h1 | h1⟩
        · omega
        · exact hbe h1
      have hstart : idom0 = upd idom0 b 0 := by
        have h2 := upd_self idom0 b
        rw [hb0'] at h2
        exact h2.symm
      rw [hstart] at h
      obtain ⟨g, hgm, hgpo, hggt⟩ := hparents b hb_po hbe
      obtain ⟨v2, hm2, hv2⟩ := idom_fold_preds st fuel entry b idom0 hvis hinj h0
        hb_po hbe hentry_po hmax hIdom (st.preceding_edges b) 0 m2
        (fun p hp => hpreds_po b p hp)
        (Or.inr (Or.inr ⟨Or.inl rfl, g, hgm, hgpo, hggt⟩)) h
      subst hm2
      have hv2ne : v2 ≠ 0 := by
        rcases hv2 with ⟨hv_po, _⟩ | rfl
        · intro he
          have := hvis v2 hv_po
          rw [he] at this
          omega
        · exact hb0
      refine ⟨?_, ?_, ?_⟩
      · rw [upd_of_ne _ _ _ (Ne.symm hbe)]
        exact hIdom.1
      · intro x hx hor
        by_cases hxb : x = b
        · subst hxb
          rw [upd_same]
          rcases hv2 with ⟨hv_po, hv_gt⟩ | rfl
          · exact ⟨hv2ne, hv_po, Or.inr hv_gt⟩
          · exact ⟨hb0, hb_po, Or.inl rfl⟩
        · rw [upd_of_ne _ _ _ hxb]
          refine hIdom.2.1 x hx ?_
          rcases hor with h1 | h1
          · left
            have hne : st.visit_order x ≠ st.visit_order b :=
              fun he => hxb (hinj x hx b hb_po he)
            omega
          · exact Or.inr h1
      · intro y hy
        by_cases hyb : y = b
        · exact absurd ⟨hyb ▸ hb_po, Or.inl (by rw [hyb]; omega)⟩ hy
        · rw [upd_of_ne _ _ _ hyb]
          refine hIdom.2.2 y ?_
          rintro ⟨hy_po, h1 | h1⟩
          · exact hy ⟨hy_po, Or.inl (by omega)⟩
          · exact hy ⟨hy_po, Or.inr h1⟩

/-- The reverse post-order walk of build_immediate_dominators, run over
the blocks with visit orders k, k-1, ..., 1, turns the invariant at k
into the invariant at 0. -/
theorem build_idom_inv (st : CFGState) (fuel : Nat) (entry : Nat)
    (hwf : WFInv st) (h0 : st.visit_order 0 < 0)
    (hentry_po : entry ∈ st.post_order)
    (hmax : ∀ x ∈ st.post_order, st.visit_order x ≤ st.visit_order entry)
    (hentry0 : entry ≠ 0)
    (hpreds_po : ∀ t p, p ∈ st.preceding_edges t → p ∈ st.post_order)
    (hparents : ∀ x ∈ st.post_order, x ≠ entry →
      ∃ p, p ∈ st.preceding_edges x ∧ p ∈ st.post_order ∧
        st.visit_order x < st.visit_order p) :
    ∀ k, k ≤ st.post_order.length → ∀ (idom0 m2 : Nat → Nat),
      IdomInv st entry (k : Int) idom0 →
      ((st.post_order.take k).reverse).foldlM (idom_block st fuel) idom0 = some m2 →
      IdomInv st entry 0 m2 := by
  intro k
  induction k with
  | zero =>
    intro _ idom0 m2 hinv h
    rw [List.take_zero, List.reverse_nil, List.foldlM_nil] at h
    obtain rfl : idom0 = m2 := by simpa using h
    exact_mod_cast hinv
  | succ k ihk =>
    intro hk idom0 m2 hinv h
    have hkl : k < st.post_order.length := by omega
    have hsplit : (st.post_order.take (k + 1)).reverse =
        st.post_order.get ⟨k, hkl⟩ :: (st.post_order.take k).reverse := by
      rw [List.take_succ]
      rw [List.getElem?_eq_getElem hkl]
      simp
    rw [hsplit, List.foldlM_cons] at h
    have hb_po : st.post_order.get ⟨k, hkl⟩ ∈ st.post_order := List.get_mem _ _ _
    have hb_vo : st.visit_order (st.post_order.get ⟨k, hkl⟩) = (k : Int) + 1 :=
      hwf.orders_idx k hkl
    cases hstep : idom_block st fuel idom0 (st.post_order.get ⟨k, hkl⟩) with
    | none =>
      rw [hstep] at h
      simp at h
    | some m1 =>
      rw [hstep] at h
      have hinv0 : IdomInv st entry
          (st.visit_order (st.post_order.get ⟨k, hkl⟩)) idom0 := by
        rw [hb_vo]
        have hcast : ((k + 1 : Nat) : Int) = (k : Int) + 1 := by push_cast; ring
        rw [← hcast]
        exact hinv
      have hinv1 := idom_block_step st fuel entry (st.post_order.get ⟨k, hkl⟩) idom0 m1
        hwf h0 hb_po hentry_po hmax hentry0 hpreds_po hparents hinv0 hstep
      rw [hb_vo] at hinv1
      have hsimp : (k : Int) + 1 - 1 = (k : Int) := by ring
      rw [hsimp] at hinv1
      exact ihk (by omega) m1 m2 hinv1 h

/-- A successful build_cfg decomposes into a successful DFS yielding
the stored state, a successful immediate-dominator construction yielding
the stored map, and the stored entry. -/
theorem build_cfg_parts (bl : Nat → Block) (entry fuel : Nat) (cfg : CFG)
    (h : build_cfg bl entry fuel = some cfg) :
    build_post_order bl entry fuel = some cfg.st ∧
    build_immediate_dominators cfg.st entry fuel = some cfg.idom ∧
    cfg.entry = entry := by
  unfold build_cfg at h
  cases hbp : build_post_order bl entry fuel with
  | none =>
    rw [hbp] at h
    simp at h
  | some st =>
    rw [hbp] at h
    dsimp only at h
    cases hbi : build_immediate_dominators st entry fuel with
    | none =>
      rw [hbi] at h
      simp at h
    | some idom =>
      rw [hbi] at h
      dsimp only at h
      obtain rfl := Option.some.inj h
      exact ⟨rfl, hbi, rfl⟩


/-- The dominator facts of a successful CFG construction on a function
that never uses the reserved block id 0: every visited block has a
nonzero immediate dominator that is itself visited and is either the
block or a block with strictly larger visit order; the entry block is
its own dominator; recorded predecessors are visited blocks. -/
theorem build_cfg_idom_facts (bl : Nat → Block) (entry fuel : Nat) (cfg : CFG)
    (h : build_cfg bl entry fuel = some cfg) (h0 : 0 ∉ cfg.st.post_order) :
    (∀ b ∈ cfg.st.post_order, cfg.idom b ≠ 0 ∧ cfg.idom b ∈ cfg.st.post_order ∧
      (cfg.idom b = b ∨ cfg.st.visit_order b < cfg.st.visit_order (cfg.idom b))) ∧
    cfg.idom entry = entry ∧
    (∀ t p, p ∈ cfg.st.preceding_edges t → p ∈ cfg.st.post_order) := by
  obtain ⟨hbp, hbi, _⟩ := build_cfg_parts bl entry fuel cfg h
  obtain ⟨hwf, hloop, hnoip, hshape, hparents⟩ :=
    build_post_order_facts bl entry fuel cfg.st hbp
  obtain ⟨mid, hm⟩ := hshape
  obtain ⟨hentry_po, hvo_entry, hmax⟩ := entry_last_order hwf hm
  have h0' : cfg.st.visit_order 0 < 0 := by
    by_contra hcon
    push_neg at hcon
    exact h0 ((hwf.mem_iff 0).1 (hnoip 0 hcon))
  have hentry0 : entry ≠ 0 := fun he => h0 (he ▸ hentry_po)
  have hpreds_po : ∀ t p, p ∈ cfg.st.preceding_edges t → p ∈ cfg.st.post_order := by
    intro t p hp
    exact (hwf.mem_iff p).1 (hnoip p (hwf.src_seen t p hp))
  have hinv0 : IdomInv cfg.st entry ((cfg.st.post_order.length : Nat) : Int)
      (upd (fun _ => 0) entry entry) := by
    refine ⟨upd_same _ _ _, ?_, ?_⟩
    · intro x hx hor
      rcases hor with h1 | h1
      · have hb1 := hwf.bound x
        rw [hwf.count_eq] at hb1
        omega
      · subst h1
        refine ⟨?_, ?_, Or.inl (upd_same _ _ _)⟩
        · rw [upd_same]
          exact hentry0
        · rw [upd_same]
          exact hentry_po
    · intro y hy
      by_cases hye : y = entry
      · exact absurd ⟨hye ▸ hentry_po, Or.inr hye⟩ hy
      · rw [upd_of_ne _ _ _ hye]
  unfold build_immediate_dominators at hbi
  have htake : cfg.st.post_order.take cfg.st.post_order.length = cfg.st.post_order :=
    List.take_length _
  have hfold : ((cfg.st.post_order.take cfg.st.post_order.length).reverse).foldlM
      (idom_block cfg.st fuel) (upd (fun _ => 0) entry entry) = some cfg.idom := by
    rw [htake]
    exact hbi
  have hfinal := build_idom_inv cfg.st fuel entry hwf h0' hentry_po hmax hentry0
    hpreds_po hparents cfg.st.post_order.length (le_refl _) _ cfg.idom hinv0 hfold
  refine ⟨?_, hfinal.1, hpreds_po⟩
  intro b hb
  have hvo_b : 0 < cfg.st.visit_order b := wf_order_of_mem hwf hb
  exact hfinal.2.1 b hb (Or.inl hvo_b)

/-- C1 amended: for every function whose CFG construction succeeds
without touching the reserved block id 0, every block B in post_order
with immediate dominator D distinct from B satisfies
visit_order(D) is greater than or equal to visit_order(B) (the original
claim stated less than or equal, which the linear chain refutes). -/
theorem claim1_amended (bl : Nat → Block) (entry fuel : Nat) (cfg : CFG)
    (h : build_cfg bl entry fuel = some cfg) (h0 : 0 ∉ cfg.st.post_order) :
    ∀ B ∈ cfg.st.post_order, cfg.idom B ≠ B →
      cfg.st.visit_order B ≤ cfg.st.visit_order (cfg.idom B) := by
  intro B hB hne
  obtain ⟨hall, _, _⟩ := build_cfg_idom_facts bl entry fuel cfg h h0
  rcases (hall B hB).2.2 with heq | hlt
  · exact absurd heq hne
  · exact le_of_lt hlt

/-- Witness for the amended C1 on the Scenario A chain at block B2(3). -/
theorem claim1_witness :
    chain_cfg.st.visit_order 3 ≤ chain_cfg.st.visit_order (chain_cfg.idom 3) :=
  claim1_amended chain_blocks 1 8 chain_cfg rfl (by decide) 3 (by decide) (by decide)

/-- C5: after successful CFG construction (with the reserved id 0
unused), the entry block is its own immediate dominator; the
computation never replaces this entry. -/
theorem claim5_entry_self_dominator (bl : Nat → Block) (entry fuel : Nat) (cfg : CFG)
    (h : build_cfg bl entry fuel = some cfg) (h0 : 0 ∉ cfg.st.post_order) :
    get_immediate_dominator cfg entry = entry :=
  (build_cfg_idom_facts bl entry fuel cfg h h0).2.1

/-- Witness for C5 on the Scenario C CFG. -/
theorem claim5_witness : get_immediate_dominator dowhile_cfg 1 = 1 :=
  claim5_entry_self_dominator dowhile_blocks 1 16 dowhile_cfg rfl (by decide)

/-- C10 amended: when immediate-dominator construction succeeds (with
the reserved id 0 unused), every block in post_order has a nonzero
immediate dominator and every recorded predecessor is itself a visited
block; a synthetic loop-header edge into an in-progress block can
instead produce a predecessor with a smaller visit order, in which case
the assert fires and construction fails. -/
theorem claim10_amended (bl : Nat → Block) (entry fuel : Nat) (cfg : CFG)
    (h : build_cfg bl entry fuel = some cfg) (h0 : 0 ∉ cfg.st.post_order) :
    (∀ b ∈ cfg.st.post_order, cfg.idom b ≠ 0) ∧
    (∀ t p, p ∈ cfg.st.preceding_edges t → p ∈ cfg.st.post_order) := by
  obtain ⟨hall, _, hpreds⟩ := build_cfg_idom_facts bl entry fuel cfg h h0
  exact ⟨fun b hb => (hall b hb).1, hpreds⟩

/-- Witness for the amended C10 on the Scenario C CFG. -/
theorem claim10_witness :
    dowhile_cfg.idom 4 ≠ 0 ∧ 2 ∈ dowhile_cfg.st.post_order := by
  have h := claim10_amended dowhile_blocks 1 16 dowhile_cfg rfl (by decide)
  exact ⟨h.1 4 (by decide), h.2 4 2 (by decide)⟩

/-- C3: after CFG construction, every visited block whose merge is
MergeLoop has its merge_block recorded among its succeeding edges and
appears symmetrically among the merge block's preceding edges,
regardless of terminator reachability. -/
theorem claim3_loop_header_synthetic_edge (bl : Nat → Block) (entry fuel : Nat)
    (cfg : CFG) (h : build_cfg bl entry fuel = some cfg) :
    ∀ b ∈ cfg.st.post_order, (bl b).merge = Merge.MergeLoop →
      (bl b).merge_block ∈ cfg.st.succeeding_edges b ∧
      b ∈ cfg.st.preceding_edges ((bl b).merge_block) := by
  obtain ⟨hbp, _, _⟩ := build_cfg_parts bl entry fuel cfg h
  exact (build_post_order_facts bl entry fuel cfg.st hbp).2.1

/-- Witness for C3 on the Scenario C CFG at the loop header 2. -/
theorem claim3_witness :
    4 ∈ dowhile_cfg.st.succeeding_edges 2 ∧ 2 ∈ dowhile_cfg.st.preceding_edges 4 :=
  claim3_loop_header_synthetic_edge dowhile_blocks 1 16 dowhile_cfg rfl 2
    (by decide) rfl

/-- C6: after CFG construction the adjacency maps are symmetric and
every adjacency list is duplicate free. -/
theorem claim6_edge_symmetry_nodup (bl : Nat → Block) (entry fuel : Nat) (cfg : CFG)
    (h : build_cfg bl entry fuel = some cfg) :
    (∀ x y, y ∈ cfg.st.succeeding_edges x ↔ x ∈ cfg.st.preceding_edges y) ∧
    (∀ x, (cfg.st.preceding_edges x).Nodup ∧ (cfg.st.succeeding_edges x).Nodup) := by
  obtain ⟨hbp, _, _⟩ := build_cfg_parts bl entry fuel cfg h
  have hwf := (build_post_order_facts bl entry fuel cfg.st hbp).1
  exact ⟨hwf.sym, fun x => ⟨hwf.nodup_pred x, hwf.nodup_succ x⟩⟩

/-- Witness for C6 on the Scenario C CFG. -/
theorem claim6_witness :
    (4 ∈ dowhile_cfg.st.succeeding_edges 2 ↔ 2 ∈ dowhile_cfg.st.preceding_edges 4) ∧
    (dowhile_cfg.st.preceding_edges 4).Nodup := by
  have h := claim6_edge_symmetry_nodup dowhile_blocks 1 16 dowhile_cfg rfl
  exact ⟨h.1 2 4, (h.2 4).1⟩

end SpirvCfg
